import Mathlib

/-!
Verification of the listing-formatting engine of the `dir` utility
(src/entry.rs and src/main.rs): entry model, color resolution, sort
engine, and the column layout algorithm.  Rust functions are shallowly
embedded as executable Lean definitions; filesystem names are modelled
as `List Char` (the UTF-8 lossy display form), machine integers as
`Nat`/`Int`, and `HashMap` as an association list.  Rust's stable
`slice::sort_by` is modelled by `List.insertionSort`, which is likewise
a stable sort.
-/

namespace Dir

/-- ASCII model of Rust `char::to_lowercase` as used on filenames:
maps `A`..`Z` to `a`..`z` and leaves every other character unchanged. -/
def lowerChar (c : Char) : Char :=
  if 'A' ≤ c ∧ c ≤ 'Z' then Char.ofNat (c.toNat + 32) else c

/-- Model of Rust `str::to_lowercase` on a filename. -/
def toLowerL (s : List Char) : List Char := s.map lowerChar

/-- Model of Rust `String::cmp`: lexicographic comparison in code-point
order (byte order of UTF-8 agrees with code-point order). -/
def cmpChars : List Char → List Char → Ordering
  | [], [] => .eq
  | [], _ :: _ => .lt
  | _ :: _, [] => .gt
  | a :: as, b :: bs =>
    if a.toNat < b.toNat then .lt
    else if b.toNat < a.toNat then .gt
    else cmpChars as bs

/-! ### Entry record (src/entry.rs) -/

def S_IFMT : Nat := 0o170000
def S_IFSOCK : Nat := 0o140000
def S_IFLNK : Nat := 0o120000
def S_IFREG : Nat := 0o100000
def S_IFBLK : Nat := 0o060000
def S_IFDIR : Nat := 0o040000
def S_IFCHR : Nat := 0o020000
def S_IFIFO : Nat := 0o010000
def S_ISUID : Nat := 0o4000
def S_ISGID : Nat := 0o2000
def S_ISVTX : Nat := 0o1000

/-- `Entry` of src/entry.rs: a name, the stat metadata (mode bits, size,
mtime — the fields of `Metadata` the program reads), and the symlink
target if any.  Unix platform: mode bits are present. -/
structure Entry where
  name : List Char
  mode : Nat
  size : Nat
  mtimeSec : Int
  link_dest : Option (List Char) := none
deriving DecidableEq

instance : Inhabited Entry := ⟨⟨[], 0, 0, 0, none⟩⟩

/-- `Metadata::is_dir`. -/
def Entry.is_dir (e : Entry) : Bool := e.mode &&& S_IFMT = S_IFDIR

/-- `Metadata::is_file`. -/
def Entry.is_file (e : Entry) : Bool := e.mode &&& S_IFMT = S_IFREG

/-- `Metadata::is_symlink`. -/
def Entry.is_symlink (e : Entry) : Bool := e.mode &&& S_IFMT = S_IFLNK

/-- `Entry::is_exec` (unix): regular file with any execute bit set. -/
def Entry.is_exec (e : Entry) : Bool := e.is_file ∧ e.mode &&& 0o111 ≠ 0

/-- `Entry::is_suid` (unix). -/
def Entry.is_suid (e : Entry) : Bool := e.mode &&& S_ISUID ≠ 0

/-- `Entry::is_sgid` (unix). -/
def Entry.is_sgid (e : Entry) : Bool := e.mode &&& S_ISGID ≠ 0

/-- `Entry::is_sticky` (unix). -/
def Entry.is_sticky (e : Entry) : Bool := e.mode &&& S_ISVTX ≠ 0

/-! ### Settings and color tables (src/main.rs) -/

def FT_FILE : Nat := 0
def FT_DIR : Nat := 1
def FT_SYMLINK : Nat := 2
def FT_FIFO : Nat := 3
def FT_SOCK : Nat := 4
def FT_BLOCKDEV : Nat := 5
def FT_CHARDEV : Nat := 6
def FT_MAX : Nat := 7

def FM_EXEC : Nat := 0
def FM_SUID : Nat := 1
def FM_SGID : Nat := 2
def FM_STICKY : Nat := 3
def FM_MAX : Nat := 4

/-- `Settings` of src/main.rs.  `color_by_extension` (a `HashMap`) is
modelled as an association list keyed by lowercase extension. -/
structure Settings where
  color : Bool
  bold : Bool
  all : Bool
  classify : Bool
  long : Bool
  one : Bool
  sort_by_size : Bool
  sort_by_time : Bool
  sort_by_extension : Bool
  sort_reverse : Bool
  color_by_extension : List (List Char × Nat)
  color_by_filetype : List Nat
  color_by_mode : List Nat
deriving DecidableEq

/-- `Settings::default()`. -/
def Settings.default : Settings where
  color := true
  bold := true
  all := false
  classify := true
  long := true
  one := false
  sort_by_size := false
  sort_by_time := false
  sort_by_extension := false
  sort_reverse := false
  color_by_extension := []
  color_by_filetype := List.replicate FT_MAX 0
  color_by_mode := List.replicate FM_MAX 0

/-- `metadata_filetype` (unix): FT index from the mode's filetype bits. -/
def metadata_filetype (e : Entry) : Nat :=
  let m := e.mode &&& S_IFMT
  if m = S_IFREG then FT_FILE
  else if m = S_IFDIR then FT_DIR
  else if m = S_IFLNK then FT_SYMLINK
  else if m = S_IFBLK then FT_BLOCKDEV
  else if m = S_IFCHR then FT_CHARDEV
  else if m = S_IFIFO then FT_FIFO
  else if m = S_IFSOCK then FT_SOCK
  else FT_FILE

/-- `format_color`: code 0 is "no color"; `bold` forces a bold variant
only for codes below 40 (foreground range). -/
def format_color (color : Nat) (config_bold : Bool) : Option String :=
  if color = 0 then none
  else if config_bold ∧ color < 40 then
    some ("\x1b[" ++ toString color ++ ";1m")
  else
    some ("\x1b[" ++ toString color ++ "m")

/-- `get_filename_ext`'s `split(".")`: Rust `str::split` on the dot
character (splitting `""` yields `[""]`). -/
def splitDot : List Char → List (List Char)
  | [] => [[]]
  | c :: cs =>
    if c = '.' then [] :: splitDot cs
    else
      match splitDot cs with
      | [] => [[c]]
      | p :: ps => (c :: p) :: ps

/-- `get_filename_ext`: the part after the last dot, if the name has at
least two dot-separated parts. -/
def get_filename_ext (filename : List Char) : Option (List Char) :=
  let parts := splitDot filename
  if parts.length ≤ 1 then none
  else some (parts.getLastD [])

/-- The substring of a filename after its final dot (meaningful when the
name contains a dot); reference rendering used to state properties of
`get_filename_ext`. -/
def afterLastDot : List Char → List Char
  | [] => []
  | c :: cs => if c = '.' ∧ '.' ∉ cs then cs else afterLastDot cs

/-- `color_by_ext`: color code for a known (lowercased) file extension. -/
def color_by_ext (filename : List Char) (settings : Settings) : Option Nat :=
  match get_filename_ext filename with
  | none => none
  | some ext => settings.color_by_extension.lookup (toLowerL ext)

/-- `colorize` (unix): resolve the escape prefix for an entry. -/
def colorize (e : Entry) (settings : Settings) : Option String :=
  if ¬ settings.color then none
  else
    let filetype := metadata_filetype e
    if filetype = FT_DIR then
      if e.is_sticky then
        format_color (settings.color_by_mode.getD FM_STICKY 0) settings.bold
      else
        format_color (settings.color_by_filetype.getD FT_DIR 0) settings.bold
    else if filetype = FT_FILE then
      if e.is_suid then
        format_color (settings.color_by_mode.getD FM_SUID 0) settings.bold
      else if e.is_sgid then
        format_color (settings.color_by_mode.getD FM_SGID 0) settings.bold
      else if e.is_sticky then
        format_color (settings.color_by_mode.getD FM_STICKY 0) settings.bold
      else
        match color_by_ext e.name settings with
        | some color => format_color color settings.bold
        | none =>
          if e.is_exec then
            format_color (settings.color_by_mode.getD FM_EXEC 0) settings.bold
          else
            format_color (settings.color_by_filetype.getD filetype 0) settings.bold
    else
      format_color (settings.color_by_filetype.getD filetype 0) settings.bold

/-- `classify` (unix: `MAIN_SEPARATOR` is `/`). -/
def classify (e : Entry) (settings : Settings) : Option Char :=
  if ¬ settings.classify then none
  else
    let filetype := metadata_filetype e
    if filetype = FT_FILE then
      if e.is_exec then some '*' else none
    else if filetype = FT_DIR then some '/'
    else if filetype = FT_SYMLINK then
      if settings.long then none else some '@'
    else if filetype = FT_FIFO then some '|'
    else if filetype = FT_SOCK then some '='
    else none

/-! ### Sort engine (src/main.rs) -/

/-- `sorter_dirs_first`: directories before non-directories; within the
same class, lowercased names in code-point order. -/
def sorter_dirs_first (a b : Entry) : Ordering :=
  if a.is_dir then
    if b.is_dir then cmpChars (toLowerL a.name) (toLowerL b.name)
    else .lt
  else
    if b.is_dir then .gt
    else cmpChars (toLowerL a.name) (toLowerL b.name)

/-- `sorter_fn_extension`: directories (never treated as having an
extension) fall back to the name rule; among non-directories the
lowercased extension compares first, no-extension before any extension,
ties falling back to the name rule. -/
def sorter_fn_extension (a b : Entry) : Ordering :=
  if a.is_dir ∨ b.is_dir then sorter_dirs_first a b
  else
    match get_filename_ext a.name with
    | some a_ext =>
      match get_filename_ext b.name with
      | some b_ext =>
        let order := cmpChars (toLowerL a_ext) (toLowerL b_ext)
        if order = .eq then sorter_dirs_first a b else order
      | none => .gt
    | none =>
      match get_filename_ext b.name with
      | some _ => .lt
      | none => sorter_dirs_first a b

/-- The `≤` relation induced by a three-way comparator, as used by a
stable comparison sort: `a` may stay before `b` iff `cmp a b ≠ Greater`. -/
def cmpLe (cmp : Entry → Entry → Ordering) (a b : Entry) : Prop :=
  cmp a b ≠ .gt

instance (cmp : Entry → Entry → Ordering) : DecidableRel (cmpLe cmp) :=
  fun a b => inferInstanceAs (Decidable (cmp a b ≠ .gt))

/-- `sort_entries`: in-place stable sort, modelled functionally.  Rust's
`slice::sort_by`/`sort_by_key` are stable; they are modelled by the
stable `List.insertionSort`.  `sort_by_key(k)` sorts by `k a ≤ k b`;
`sort_by_key(Reverse(k))` by `k b ≤ k a`; `sort_by(f)` keeps `a` before
`b` iff `f a b ≠ Greater`, and the reverse variants call the comparator
with swapped arguments. -/
def sort_entries (settings : Settings) (entries : List Entry) : List Entry :=
  if settings.sort_by_size then
    if settings.sort_reverse then
      entries.insertionSort (fun a b => b.size ≤ a.size)
    else
      entries.insertionSort (fun a b => a.size ≤ b.size)
  else if settings.sort_by_time then
    if settings.sort_reverse then
      entries.insertionSort (fun a b => b.mtimeSec ≤ a.mtimeSec)
    else
      entries.insertionSort (fun a b => a.mtimeSec ≤ b.mtimeSec)
  else if settings.sort_by_extension then
    if settings.sort_reverse then
      entries.insertionSort (cmpLe (fun a b => sorter_fn_extension b a))
    else
      entries.insertionSort (cmpLe sorter_fn_extension)
  else
    if settings.sort_reverse then
      entries.insertionSort (cmpLe (fun a b => sorter_dirs_first b a))
    else
      entries.insertionSort (cmpLe sorter_dirs_first)

/-- The ordering stated by the spec for the Name key: directories before
non-directories; within one class, lowercased names in code-point order. -/
def nameSpecLe (a b : Entry) : Prop :=
  (a.is_dir = true ∧ b.is_dir = false) ∨
  (a.is_dir = b.is_dir ∧ cmpChars (toLowerL a.name) (toLowerL b.name) ≠ .gt)

/-- The ordering stated by the spec for the Extension key: directories
first (by the name rule among themselves); among non-directories the
lowercased extension first (no extension before any extension), ties by
the name rule. -/
def extSpecLe (a b : Entry) : Prop :=
  (a.is_dir = true ∧ b.is_dir = false) ∨
  (a.is_dir = true ∧ b.is_dir = true ∧ cmpChars (toLowerL a.name) (toLowerL b.name) ≠ .gt) ∨
  (a.is_dir = false ∧ b.is_dir = false ∧
    ((get_filename_ext a.name = none ∧ get_filename_ext b.name ≠ none) ∨
     (∃ ea eb, get_filename_ext a.name = some ea ∧ get_filename_ext b.name = some eb ∧
       cmpChars (toLowerL ea) (toLowerL eb) = .lt) ∨
     (((get_filename_ext a.name = none ∧ get_filename_ext b.name = none) ∨
       ∃ ea eb, get_filename_ext a.name = some ea ∧ get_filename_ext b.name = some eb ∧
         toLowerL ea = toLowerL eb) ∧
      cmpChars (toLowerL a.name) (toLowerL b.name) ≠ .gt)))

/-! ### Column layout algorithm (src/main.rs) -/

/-- `ColumnInfo` of src/main.rs. -/
structure ColumnInfo where
  valid : Bool
  lineLength : Nat
  columnWidths : List Nat
deriving DecidableEq

/-- `ColumnInfo::SPACER`. -/
def SPACER : Nat := 2

def ciDefault : ColumnInfo := ⟨true, 0, []⟩

/-- `display_width`: character count of the name plus one for a
classification suffix. -/
def display_width (e : Entry) (settings : Settings) : Nat :=
  e.name.length + (if (classify e settings).isSome then 1 else 0)

/-- `determine_min_column_width`: minimum over all entries of
`display_width + SPACER`, capped at the terminal width. -/
def determine_min_column_width_of (ws : List Nat) (term_width : Nat) : Nat :=
  ws.foldl (fun m w => min m (w + SPACER)) term_width

/-- One iteration of the inner loop of `determine_column_widths` for
candidate `i` (which has `i + 1` columns), fitting entry number `n` of
display width `w`: an invalid candidate is skipped; otherwise the
entry's column is `n / ((total + i) / (i + 1))`, a spacer is added
except in the last column, and if the width grew, the line length and
validity (`line_length < term_width`, strictly) are updated. -/
def ciStep (T total i n w : Nat) (ci : ColumnInfo) : ColumnInfo :=
  if ci.valid = false then ci
  else
    let col := n / ((total + i) / (i + 1))
    let width := if col ≠ i then w + SPACER else w
    let old := ci.columnWidths.getD col 0
    if old ≤ width then
      { valid := decide (ci.lineLength + (width - old) < T)
        lineLength := ci.lineLength + (width - old)
        columnWidths := ci.columnWidths.set col width }
    else ci

/-- The inner `for i in 0..num_possible` loop: apply `ciStep` to every
candidate, the candidate index following the list position. -/
def stepAll (T total n w : Nat) : Nat → List ColumnInfo → List ColumnInfo
  | _, [] => []
  | i, ci :: rest => ciStep T total i n w ci :: stepAll T total n w (i + 1) rest

/-- `entries.iter().enumerate()` on the display widths. -/
def idxList (ws : List Nat) : List (Nat × Nat) :=
  (List.range ws.length).zip ws

/-- The triangular initial structure: candidate `u` starts valid with
`u + 1` zero column widths. -/
def initInfo (num_possible : Nat) : List ColumnInfo :=
  (List.range num_possible).map
    (fun u => { valid := true, lineLength := 0, columnWidths := List.replicate (u + 1) 0 })

/-- The outer entry-fitting loop of `determine_column_widths`. -/
def fitEntries (T : Nat) (ws : List Nat) (cis : List ColumnInfo) : List ColumnInfo :=
  (idxList ws).foldl (fun acc p => stepAll T ws.length p.1 p.2 0 acc) cis

/-- The final selection loop: the largest candidate index that is still
valid, defaulting to 0 when none is. -/
def chooseIdx (cis : List ColumnInfo) : Nat :=
  (((List.range cis.length).reverse).find? (fun i => (cis.getD i ciDefault).valid)).getD 0

/-- `num_possible = term_width / min_width`. -/
def numPossibleW (ws : List Nat) (T : Nat) : Nat :=
  T / determine_min_column_width_of ws T

/-- `determine_column_widths` on the display widths: the terminal width
`T` is the value supplied by the terminal-size collaborator. -/
def determineColumnWidthsW (ws : List Nat) (T : Nat) : List Nat :=
  if ws.length ≤ 1 then [T]
  else if numPossibleW ws T ≤ 1 then [T]
  else
    let cis := fitEntries T ws (initInfo (numPossibleW ws T))
    (cis.getD (chooseIdx cis) ciDefault).columnWidths

/-- The display widths of the entries, the only data about them the
layout algorithm reads. -/
def displayWidths (entries : List Entry) (settings : Settings) : List Nat :=
  entries.map (fun e => display_width e settings)

/-- `determine_column_widths`: the entries enter the algorithm only
through `display_width`. -/
def determine_column_widths (entries : List Entry) (settings : Settings) (T : Nat) : List Nat :=
  determineColumnWidthsW (displayWidths entries settings) T

/-- The per-candidate fitting loop with the validity bookkeeping
removed: the running line length and column widths of candidate `i`
when every entry is fitted.  Its first component is the candidate's
full running line length. -/
def freeStep (total i n w : Nat) (st : Nat × List Nat) : Nat × List Nat :=
  let col := n / ((total + i) / (i + 1))
  let width := if col ≠ i then w + SPACER else w
  let old := st.2.getD col 0
  if old ≤ width then (st.1 + (width - old), st.2.set col width)
  else st

/-- Full (never-invalidated) simulation of candidate `i`. -/
def freeSim (ws : List Nat) (i : Nat) : Nat × List Nat :=
  (idxList ws).foldl (fun st p => freeStep ws.length i p.1 p.2 st) (0, List.replicate (i + 1) 0)

/-- The full running line length of candidate `i`. -/
def candLineLength (ws : List Nat) (i : Nat) : Nat := (freeSim ws i).1

/-- Contribution of an entry of display width `w` placed in column
`col` of candidate `i`: a spacer is counted except in the last column. -/
def colContribution (i w col : Nat) : Nat :=
  if col ≠ i then w + SPACER else w

/-- The maximum observed width of column `col` of candidate `i`: the
maximum over the entries assigned to that column of their display width
plus spacer. -/
def columnMax (ws : List Nat) (i col : Nat) : Nat :=
  (idxList ws).foldl
    (fun m p =>
      if p.1 / ((ws.length + i) / (i + 1)) = col then max m (colContribution i p.2 col) else m)
    0

/-- Proof invariant tying a candidate's `ColumnInfo` during the fitting
loop to its free (never-invalidated) simulation state: while valid the
two agree and the line length is below the terminal width; once invalid
the free line length has reached the terminal width. -/
def fitRel (T : Nat) (ci : ColumnInfo) (f : Nat × List Nat) : Prop :=
  (ci.valid = true ∧ ci.lineLength = f.1 ∧ ci.columnWidths = f.2 ∧ f.1 < T) ∨
  (ci.valid = false ∧ T ≤ f.1)

/-- The settings in effect in wide display mode: the defaults with the
`--wide` flag applied (`long := false`). -/
def wideSettings : Settings := { Settings.default with long := false }

/-- The amended content of claim C2 over the display widths `ws` and a
terminal width `T`: a candidate ends up invalid exactly when its full
running line length (provably the sum of its per-column maxima of
display width plus spacer, no spacer in the last column) reaches or
exceeds `T` (strictly below is required, not merely not-exceeding);
invalid candidates are skipped by every later fitting step; when the
selected candidate is valid, the returned Column Plan is exactly its
per-column maxima, whose sum is strictly below `T`; and the selected
candidate count is maximal: every candidate with more columns (up to
`num_possible`) has a line length that reached `T`. -/
def C2Prop (ws : List Nat) (T : Nat) : Prop :=
  let m := numPossibleW ws T
  let cis := fitEntries T ws (initInfo m)
  let c := chooseIdx cis
  (∀ i, i < m → ((cis.getD i ciDefault).valid = false ↔ T ≤ candLineLength ws i)) ∧
  (∀ i, candLineLength ws i = ((List.range (i + 1)).map (columnMax ws i)).sum) ∧
  (∀ T' total i n w ci, ci.valid = false → ciStep T' total i n w ci = ci) ∧
  ((cis.getD c ciDefault).valid = true →
    determineColumnWidthsW ws T = (List.range (c + 1)).map (columnMax ws c) ∧
    (determineColumnWidthsW ws T).sum = candLineLength ws c ∧
    (determineColumnWidthsW ws T).sum < T) ∧
  (∀ j, c < j → j < m → T ≤ candLineLength ws j)

/-! ### Wide-listing renderer (src/main.rs, `show_wide_listing`) -/

/-- Ceiling division, used to state the row-count formulas. -/
def ceilDiv (a b : Nat) : Nat := (a + b - 1) / b

/-- The number of output lines computed by `show_wide_listing`:
`entries.len() / columns`, plus one if there is a remainder. -/
def num_lines (entries : List Entry) (settings : Settings) (T : Nat) : Nat :=
  let k := (determine_column_widths entries settings T).length
  entries.length / k + (if entries.length % k ≠ 0 then 1 else 0)

/-- The inner render loop of `show_wide_listing` for one line, carried
out on the suffix of column widths not yet used.  Each produced cell is
the printed entry's index paired with the number of padding spaces
printed after it (`column_width - display_width`, and none after the
last cell of the line).  The loop stops after a cell when the next
entry index `i + num_lines` is out of range, when the columns are
exhausted, or when the next column's width is zero. -/
def renderLineAux (dw : Nat → Nat) (numLines total : Nat) : List Nat → Nat → List (Nat × Nat)
  | [], _ => []
  | w :: rest, i =>
    if total ≤ i + numLines then [(i, 0)]
    else
      match rest with
      | [] => [(i, 0)]
      | w' :: _ =>
        if w' = 0 then [(i, 0)]
        else (i, w - dw i) :: renderLineAux dw numLines total rest (i + numLines)

/-- One output line of `show_wide_listing`. -/
def renderLine (dw : Nat → Nat) (widths : List Nat) (numLines total line : Nat) :
    List (Nat × Nat) :=
  renderLineAux dw numLines total widths line

/-- `show_wide_listing`, modelled as the list of rendered lines (each a
list of (entry index, trailing padding) cells). -/
def show_wide_listing (entries : List Entry) (settings : Settings) (T : Nat) :
    List (List (Nat × Nat)) :=
  if entries.isEmpty then []
  else
    let widths := determine_column_widths entries settings T
    let nl := num_lines entries settings T
    (List.range nl).map
      (fun line =>
        renderLine (fun j => display_width (entries.getD j default) settings) widths nl
          entries.length line)

/-! ## Lemmas -/

/-! ### Character-list comparison: a total preorder -/

theorem charToNatInj {a b : Char} (h : a.toNat = b.toNat) : a = b :=
  Char.eq_of_val_eq (UInt32.ext h)

theorem cmpChars_eq_iff : ∀ {a b : List Char}, cmpChars a b = .eq ↔ a = b
  | [], [] => by simp [cmpChars]
  | [], _ :: _ => by simp [cmpChars]
  | _ :: _, [] => by simp [cmpChars]
  | a :: as, b :: bs => by
    simp only [cmpChars]
    by_cases h1 : a.toNat < b.toNat
    · simp only [if_pos h1]
      constructor
      · intro h
        cases h
      · intro h
        injection h with h1' h2'
        subst h1'
        omega
    · by_cases h2 : b.toNat < a.toNat
      · simp only [if_neg h1, if_pos h2]
        constructor
        · intro h
          cases h
        · intro h
          injection h with h1' h2'
          subst h1'
          omega
      · have hab : a = b := charToNatInj (by omega)
        subst hab
        simp only [if_neg h1, if_neg h2, cmpChars_eq_iff]
        simp

theorem cmpChars_gt_iff : ∀ {a b : List Char}, cmpChars a b = .gt ↔ cmpChars b a = .lt
  | [], [] => by simp [cmpChars]
  | [], _ :: _ => by simp [cmpChars]
  | _ :: _, [] => by simp [cmpChars]
  | a :: as, b :: bs => by
    simp only [cmpChars]
    by_cases h1 : a.toNat < b.toNat
    · rw [if_pos h1, if_neg (show ¬ b.toNat < a.toNat by omega), if_pos h1]
      simp
    · by_cases h2 : b.toNat < a.toNat
      · rw [if_neg h1, if_pos h2, if_pos h2]
        simp
      · simp only [if_neg h1, if_neg h2]
        exact cmpChars_gt_iff

theorem cmpChars_lt_trans : ∀ {a b c : List Char},
    cmpChars a b = .lt → cmpChars b c = .lt → cmpChars a c = .lt
  | [], _ :: _, _ :: _, _, _ => rfl
  | [], _ :: _, [], _, h2 => by cases h2
  | [], [], _, h1, _ => by cases h1
  | _ :: _, [], _, h1, _ => by cases h1
  | _ :: _, _ :: _, [], _, h2 => by cases h2
  | a :: as, b :: bs, c :: cs, h1, h2 => by
    simp only [cmpChars] at h1 h2 ⊢
    by_cases hab1 : a.toNat < b.toNat
    · by_cases hbc1 : b.toNat < c.toNat
      · simp [if_pos (by omega : a.toNat < c.toNat)]
      · by_cases hbc2 : c.toNat < b.toNat
        · simp only [if_neg hbc1, if_pos hbc2] at h2
          cases h2
        · simp [if_pos (by omega : a.toNat < c.toNat)]
    · by_cases hab2 : b.toNat < a.toNat
      · simp only [if_neg hab1, if_pos hab2] at h1
        cases h1
      · simp only [if_neg hab1, if_neg hab2] at h1
        by_cases hbc1 : b.toNat < c.toNat
        · simp [if_pos (by omega : a.toNat < c.toNat)]
        · by_cases hbc2 : c.toNat < b.toNat
          · simp only [if_neg hbc1, if_pos hbc2] at h2
            cases h2
          · simp only [if_neg hbc1, if_neg hbc2] at h2
            simp only [if_neg (by omega : ¬ a.toNat < c.toNat),
              if_neg (by omega : ¬ c.toNat < a.toNat)]
            exact cmpChars_lt_trans h1 h2

theorem cmpChars_ne_gt_iff {a b : List Char} :
    cmpChars a b ≠ .gt ↔ (cmpChars a b = .lt ∨ a = b) := by
  rw [← cmpChars_eq_iff]
  cases hab : cmpChars a b <;> simp

theorem cmpChars_le_trans {a b c : List Char}
    (h1 : cmpChars a b ≠ .gt) (h2 : cmpChars b c ≠ .gt) : cmpChars a c ≠ .gt := by
  rw [cmpChars_ne_gt_iff] at h1 h2 ⊢
  rcases h1 with h1 | rfl
  · rcases h2 with h2 | rfl
    · exact Or.inl (cmpChars_lt_trans h1 h2)
    · exact Or.inl h1
  · exact h2

theorem cmpChars_le_total (a b : List Char) :
    cmpChars a b ≠ .gt ∨ cmpChars b a ≠ .gt := by
  cases hab : cmpChars a b
  · exact Or.inl (by simp [hab])
  · exact Or.inl (by simp [hab])
  · refine Or.inr ?_
    rw [cmpChars_gt_iff] at hab
    simp [hab]

/-! ### Comparator laws of the sort engine -/

theorem sorter_dirs_first_dir_nondir {a b : Entry}
    (ha : a.is_dir = true) (hb : b.is_dir = false) :
    sorter_dirs_first a b = .lt ∧ sorter_dirs_first b a = .gt := by
  simp [sorter_dirs_first, ha, hb]

theorem sorter_dirs_first_same_class {a b : Entry} (h : a.is_dir = b.is_dir) :
    sorter_dirs_first a b = cmpChars (toLowerL a.name) (toLowerL b.name) := by
  unfold sorter_dirs_first
  cases hb : b.is_dir <;> rw [hb] at h <;> simp [h]

theorem nameLe_trans {a b c : Entry}
    (h1 : cmpLe sorter_dirs_first a b) (h2 : cmpLe sorter_dirs_first b c) :
    cmpLe sorter_dirs_first a c := by
  unfold cmpLe sorter_dirs_first at *
  cases ha : a.is_dir <;> cases hb : b.is_dir <;> cases hc : c.is_dir <;>
    simp only [ha, hb, hc, if_true, if_false] at h1 h2 ⊢ <;> simp_all
  · exact cmpChars_le_trans h1 h2
  · exact cmpChars_le_trans h1 h2

theorem nameLe_total (a b : Entry) :
    cmpLe sorter_dirs_first a b ∨ cmpLe sorter_dirs_first b a := by
  unfold cmpLe sorter_dirs_first
  cases ha : a.is_dir <;> cases hb : b.is_dir <;> simp_all
  · exact cmpChars_le_total _ _
  · exact cmpChars_le_total _ _

theorem sorter_fn_extension_of_dir {a b : Entry} (h : a.is_dir = true ∨ b.is_dir = true) :
    sorter_fn_extension a b = sorter_dirs_first a b := by
  unfold sorter_fn_extension
  rcases h with h | h <;> simp [h]

theorem sorter_fn_extension_nondir {a b : Entry} (ha : a.is_dir = false) (hb : b.is_dir = false) :
    sorter_fn_extension a b =
      match get_filename_ext a.name, get_filename_ext b.name with
      | some a_ext, some b_ext =>
        if cmpChars (toLowerL a_ext) (toLowerL b_ext) = .eq then sorter_dirs_first a b
        else cmpChars (toLowerL a_ext) (toLowerL b_ext)
      | some _, none => .gt
      | none, some _ => .lt
      | none, none => sorter_dirs_first a b := by
  unfold sorter_fn_extension
  rw [if_neg (by simp [ha, hb])]
  rcases get_filename_ext a.name <;> rcases get_filename_ext b.name <;> rfl

theorem extLe_trans {a b c : Entry}
    (h1 : cmpLe sorter_fn_extension a b) (h2 : cmpLe sorter_fn_extension b c) :
    cmpLe sorter_fn_extension a c := by
  by_cases ha : a.is_dir = true
  · unfold cmpLe
    rw [sorter_fn_extension_of_dir (Or.inl ha)]
    by_cases hc : c.is_dir = true
    · by_cases hb : b.is_dir = true
      · have h1' : cmpLe sorter_dirs_first a b := by
          unfold cmpLe
          rw [← sorter_fn_extension_of_dir (Or.inl ha)]
          exact h1
        have h2' : cmpLe sorter_dirs_first b c := by
          unfold cmpLe
          rw [← sorter_fn_extension_of_dir (Or.inl hb)]
          exact h2
        exact nameLe_trans h1' h2'
      · exfalso
        apply h2
        rw [sorter_fn_extension_of_dir (Or.inr hc)]
        exact (sorter_dirs_first_dir_nondir hc (by simpa using hb)).2
    · rw [(sorter_dirs_first_dir_nondir ha (by simpa using hc)).1]
      simp
  · by_cases hb : b.is_dir = true
    · exfalso
      apply h1
      rw [sorter_fn_extension_of_dir (Or.inr hb)]
      exact (sorter_dirs_first_dir_nondir hb (by simpa using ha)).2
    · by_cases hc : c.is_dir = true
      · exfalso
        apply h2
        rw [sorter_fn_extension_of_dir (Or.inr hc)]
        exact (sorter_dirs_first_dir_nondir hc (by simpa using hb)).2
      · -- all three are non-directories: the extension-lex logic
        replace ha : a.is_dir = false := by simpa using ha
        replace hb : b.is_dir = false := by simpa using hb
        replace hc : c.is_dir = false := by simpa using hc
        unfold cmpLe at h1 h2 ⊢
        rw [sorter_fn_extension_nondir ha hb] at h1
        rw [sorter_fn_extension_nondir hb hc] at h2
        rw [sorter_fn_extension_nondir ha hc]
        rcases hea : get_filename_ext a.name with _ | a_ext <;>
          rcases heb : get_filename_ext b.name with _ | b_ext <;>
          rcases hec : get_filename_ext c.name with _ | c_ext <;>
          simp only [hea, heb, hec] at h1 h2 ⊢
        · exact nameLe_trans h1 h2
        · simp
        · exact absurd rfl h2
        · simp
        · exact absurd rfl h1
        · exact absurd rfl h1
        · exact absurd rfl h2
        · -- all three have extensions
          by_cases e1 : cmpChars (toLowerL a_ext) (toLowerL b_ext) = .eq
          · have hab : toLowerL a_ext = toLowerL b_ext := cmpChars_eq_iff.mp e1
            rw [if_pos e1] at h1
            by_cases e2 : cmpChars (toLowerL b_ext) (toLowerL c_ext) = .eq
            · have hbc : toLowerL b_ext = toLowerL c_ext := cmpChars_eq_iff.mp e2
              rw [if_pos e2] at h2
              rw [if_pos (by rw [hab, hbc]; exact cmpChars_eq_iff.mpr rfl)]
              exact nameLe_trans h1 h2
            · rw [if_neg e2] at h2
              rw [hab]
              rw [if_neg e2]
              exact h2
          · rw [if_neg e1] at h1
            by_cases e2 : cmpChars (toLowerL b_ext) (toLowerL c_ext) = .eq
            · have hbc : toLowerL b_ext = toLowerL c_ext := cmpChars_eq_iff.mp e2
              rw [← hbc]
              rw [if_neg e1]
              exact h1
            · rw [if_neg e2] at h2
              have h3 := cmpChars_le_trans h1 h2
              by_cases e3 : cmpChars (toLowerL a_ext) (toLowerL c_ext) = .eq
              · rw [if_pos e3]
                -- impossible: a_ext < b_ext < c_ext but a_ext = c_ext
                have hac : toLowerL a_ext = toLowerL c_ext := cmpChars_eq_iff.mp e3
                rcases cmpChars_ne_gt_iff.mp h1 with hlt1 | heq1
                · rcases cmpChars_ne_gt_iff.mp h2 with hlt2 | heq2
                  · exfalso
                    have := cmpChars_lt_trans hlt1 hlt2
                    rw [hac] at this
                    rw [cmpChars_eq_iff.mpr rfl] at this
                    cases this
                  · exact absurd (cmpChars_eq_iff.mpr heq2) e2
                · exact absurd (cmpChars_eq_iff.mpr heq1) e1
              · rw [if_neg e3]
                exact h3

theorem extLe_total (a b : Entry) :
    cmpLe sorter_fn_extension a b ∨ cmpLe sorter_fn_extension b a := by
  by_cases ha : a.is_dir = true
  · by_cases hb : b.is_dir = true
    · unfold cmpLe
      rw [sorter_fn_extension_of_dir (Or.inl ha), sorter_fn_extension_of_dir (Or.inl hb)]
      exact nameLe_total a b
    · left
      unfold cmpLe
      rw [sorter_fn_extension_of_dir (Or.inl ha),
        (sorter_dirs_first_dir_nondir ha (by simpa using hb)).1]
      simp
  · by_cases hb : b.is_dir = true
    · right
      unfold cmpLe
      rw [sorter_fn_extension_of_dir (Or.inl hb),
        (sorter_dirs_first_dir_nondir hb (by simpa using ha)).1]
      simp
    · replace ha : a.is_dir = false := by simpa using ha
      replace hb : b.is_dir = false := by simpa using hb
      unfold cmpLe
      rw [sorter_fn_extension_nondir ha hb, sorter_fn_extension_nondir hb ha]
      rcases hea : get_filename_ext a.name with _ | a_ext <;>
        rcases heb : get_filename_ext b.name with _ | b_ext <;>
        simp only
      · exact nameLe_total a b
      · left
        simp
      · right
        simp
      · by_cases e1 : cmpChars (toLowerL a_ext) (toLowerL b_ext) = .eq
        · have hab : toLowerL a_ext = toLowerL b_ext := cmpChars_eq_iff.mp e1
          rw [if_pos e1, if_pos (by rw [← hab]; exact cmpChars_eq_iff.mpr rfl)]
          exact nameLe_total a b
        · rw [if_neg e1]
          rcases het : cmpChars (toLowerL a_ext) (toLowerL b_ext) with _ | _ | _
          · left
            simp [het]
          · exact absurd het e1
          · right
            rw [if_neg (fun hh => e1 (by
              have := cmpChars_eq_iff.mp hh
              exact cmpChars_eq_iff.mpr this.symm))]
            rw [cmpChars_gt_iff] at het
            simp [het]

/-! ### Extension extraction -/

theorem splitDot_ne_nil : ∀ (l : List Char), splitDot l ≠ []
  | [] => by simp [splitDot]
  | c :: cs => by
    unfold splitDot
    by_cases h : c = '.'
    · simp [h]
    · rw [if_neg h]
      rcases hs : splitDot cs with _ | ⟨p, ps⟩ <;> simp

theorem splitDot_no_dot : ∀ {l : List Char}, '.' ∉ l → splitDot l = [l]
  | [], _ => rfl
  | c :: cs, h => by
    have hc : ¬ c = '.' := fun hh => h (hh ▸ List.mem_cons_self c cs)
    have hcs : '.' ∉ cs := fun hh => h (List.mem_cons_of_mem c hh)
    unfold splitDot
    rw [if_neg hc, splitDot_no_dot hcs]

theorem splitDot_length_two : ∀ {l : List Char}, '.' ∈ l → 2 ≤ (splitDot l).length
  | c :: cs, h => by
    unfold splitDot
    by_cases hc : c = '.'
    · rw [if_pos hc]
      have := splitDot_ne_nil cs
      have : 1 ≤ (splitDot cs).length := by
        rcases hs : splitDot cs with _ | _
        · exact absurd hs this
        · simp
      simp only [List.length_cons]
      omega
    · rw [if_neg hc]
      have hcs : '.' ∈ cs := by
        rcases List.mem_cons.mp h with h1 | h1
        · exact absurd h1.symm hc
        · exact h1
      have ih := splitDot_length_two hcs
      rcases hs : splitDot cs with _ | ⟨p, ps⟩
      · exact absurd hs (splitDot_ne_nil cs)
      · rw [hs] at ih
        simpa using ih

theorem splitDot_getLastD : ∀ {l : List Char}, '.' ∈ l →
    (splitDot l).getLastD [] = afterLastDot l
  | c :: cs, h => by
    unfold splitDot afterLastDot
    by_cases hc : c = '.'
    · rw [if_pos hc]
      by_cases hcs : '.' ∈ cs
      · rw [if_neg (by simp [hcs])]
        rcases hs : splitDot cs with _ | ⟨p, ps⟩
        · exact absurd hs (splitDot_ne_nil cs)
        · have ih := splitDot_getLastD hcs
          rw [hs] at ih
          simpa using ih
      · rw [if_pos ⟨hc, hcs⟩, splitDot_no_dot hcs]
        rfl
    · rw [if_neg hc, if_neg (by simp [hc])]
      have hcs : '.' ∈ cs := by
        rcases List.mem_cons.mp h with h1 | h1
        · exact absurd h1.symm hc
        · exact h1
      rcases hs : splitDot cs with _ | ⟨p, ps⟩
      · exact absurd hs (splitDot_ne_nil cs)
      · have ih := splitDot_getLastD hcs
        rw [hs] at ih
        have hlen := splitDot_length_two hcs
        rw [hs] at hlen
        rcases ps with _ | ⟨q, qs⟩
        · simp at hlen
        · simpa using ih

theorem get_filename_ext_of_dot {l : List Char} (h : '.' ∈ l) :
    get_filename_ext l = some (afterLastDot l) := by
  unfold get_filename_ext
  rw [if_neg (by have := splitDot_length_two h; omega), splitDot_getLastD h]

theorem get_filename_ext_of_no_dot {l : List Char} (h : '.' ∉ l) :
    get_filename_ext l = none := by
  unfold get_filename_ext
  rw [splitDot_no_dot h]
  rfl

/-! ### Column layout: fold bookkeeping -/

theorem stepAll_length (T total n w : Nat) :
    ∀ (cis : List ColumnInfo) (i0 : Nat), (stepAll T total n w i0 cis).length = cis.length
  | [], _ => rfl
  | _ :: rest, i0 => by
    simp only [stepAll, List.length_cons]
    rw [stepAll_length T total n w rest (i0 + 1)]

theorem stepAll_getD (T total n w : Nat) :
    ∀ (cis : List ColumnInfo) (i0 k : Nat) (d : ColumnInfo), k < cis.length →
      (stepAll T total n w i0 cis).getD k d = ciStep T total (i0 + k) n w (cis.getD k d)
  | [], _, k, _, h => by simp at h
  | ci :: rest, i0, 0, d, _ => by simp [stepAll]
  | ci :: rest, i0, k + 1, d, h => by
    simp only [stepAll, List.getD_cons_succ]
    rw [stepAll_getD T total n w rest (i0 + 1) k d (by simpa using h)]
    congr 1
    omega

theorem foldl_rel {α β γ : Type _} (R : β → γ → Prop) (g : β → α → β) (h : γ → α → γ) :
    ∀ (l : List α), (∀ b c a, a ∈ l → R b c → R (g b a) (h c a)) →
      ∀ {b c}, R b c → R (l.foldl g b) (l.foldl h c)
  | [], _, _, _, hR => hR
  | a :: l, pres, b, c, hR => by
    simp only [List.foldl_cons]
    exact foldl_rel R g h l (fun b' c' a' ha' => pres b' c' a' (List.mem_cons_of_mem a ha'))
      (pres b c a (List.mem_cons_self a l) hR)

theorem foldl_inv {α β : Type _} (P : β → Prop) (g : β → α → β) :
    ∀ (l : List α), (∀ b a, a ∈ l → P b → P (g b a)) → ∀ {b}, P b → P (l.foldl g b)
  | [], _, _, hP => hP
  | a :: l, pres, b, hP => by
    simp only [List.foldl_cons]
    exact foldl_inv P g l (fun b' a' ha' => pres b' a' (List.mem_cons_of_mem a ha'))
      (pres b a (List.mem_cons_self a l) hP)

theorem fold_stepAll_getD (T total : Nat) :
    ∀ (l : List (Nat × Nat)) (cis : List ColumnInfo) (k : Nat) (d : ColumnInfo),
      k < cis.length →
      (l.foldl (fun acc p => stepAll T total p.1 p.2 0 acc) cis).getD k d =
        l.foldl (fun st p => ciStep T total k p.1 p.2 st) (cis.getD k d)
  | [], _, _, _, _ => rfl
  | p :: l, cis, k, d, h => by
    simp only [List.foldl_cons]
    rw [fold_stepAll_getD T total l _ k d (by rw [stepAll_length]; exact h)]
    rw [stepAll_getD T total p.1 p.2 cis 0 k d h]
    simp

theorem fold_stepAll_length (T total : Nat) (l : List (Nat × Nat)) (cis : List ColumnInfo) :
    (l.foldl (fun acc p => stepAll T total p.1 p.2 0 acc) cis).length = cis.length := by
  have := foldl_inv (fun acc => acc.length = cis.length)
    (fun acc p => stepAll T total p.1 p.2 0 acc) l
    (fun b a _ hb => by
      show (stepAll T total a.1 a.2 0 b).length = cis.length
      rw [stepAll_length]
      exact hb) rfl
  exact this

theorem fitEntries_getD (T : Nat) (ws : List Nat) (cis : List ColumnInfo) (k : Nat)
    (d : ColumnInfo) (h : k < cis.length) :
    (fitEntries T ws cis).getD k d =
      (idxList ws).foldl (fun st p => ciStep T ws.length k p.1 p.2 st) (cis.getD k d) :=
  fold_stepAll_getD T ws.length (idxList ws) cis k d h

theorem fitEntries_length (T : Nat) (ws : List Nat) (cis : List ColumnInfo) :
    (fitEntries T ws cis).length = cis.length :=
  fold_stepAll_length T ws.length (idxList ws) cis

theorem initInfo_length (m : Nat) : (initInfo m).length = m := by
  simp [initInfo]

theorem initInfo_getD {m k : Nat} (h : k < m) (d : ColumnInfo) :
    (initInfo m).getD k d = ⟨true, 0, List.replicate (k + 1) 0⟩ := by
  rw [List.getD_eq_getElem?_getD]
  unfold initInfo
  rw [List.getElem?_map, List.getElem?_range h]
  rfl

theorem idxList_fst_lt {ws : List Nat} {p : Nat × Nat} (h : p ∈ idxList ws) :
    p.1 < ws.length := by
  obtain ⟨n, w⟩ := p
  have := List.of_mem_zip h
  simpa using this.1

theorem col_le {total i n : Nat} (hn : n < total) : n / ((total + i) / (i + 1)) ≤ i := by
  have hdm := Nat.div_add_mod (total + i) (i + 1)
  have hmod : (total + i) % (i + 1) < i + 1 := Nat.mod_lt _ (by omega)
  have htot : total ≤ (i + 1) * ((total + i) / (i + 1)) := by omega
  have hrpos : 0 < (total + i) / (i + 1) := by
    rcases Nat.eq_zero_or_pos ((total + i) / (i + 1)) with h0 | h0
    · rw [h0, Nat.mul_zero] at htot
      omega
    · exact h0
  have hlt : n / ((total + i) / (i + 1)) < i + 1 := by
    rw [Nat.div_lt_iff_lt_mul hrpos]
    omega
  omega

theorem freeStep_fst_le (total i n w : Nat) (st : Nat × List Nat) :
    st.1 ≤ (freeStep total i n w st).1 := by
  unfold freeStep
  dsimp only
  split <;> split <;> simp

/-! ### The fitting loop against the free simulation -/

theorem ciStep_freeStep_rel {T total i n w : Nat} {ci : ColumnInfo} {f : Nat × List Nat}
    (hR : fitRel T ci f) : fitRel T (ciStep T total i n w ci) (freeStep total i n w f) := by
  rcases hR with ⟨hv, h1, h2, hlt⟩ | ⟨hv, hT⟩
  · unfold ciStep freeStep
    rw [if_neg (by rw [hv]; simp)]
    dsimp only
    rw [h1, h2]
    generalize (if n / ((total + i) / (i + 1)) ≠ i then w + SPACER else w) = width
    generalize hcol : n / ((total + i) / (i + 1)) = col
    by_cases hold : f.2.getD col 0 ≤ width
    · rw [if_pos hold, if_pos hold]
      by_cases hlt' : f.1 + (width - f.2.getD col 0) < T
      · exact Or.inl ⟨decide_eq_true hlt', rfl, rfl, hlt'⟩
      · exact Or.inr ⟨decide_eq_false hlt', by omega⟩
    · rw [if_neg hold, if_neg hold]
      exact Or.inl ⟨hv, h1, h2, hlt⟩
  · unfold ciStep
    rw [if_pos hv]
    exact Or.inr ⟨hv, le_trans hT (freeStep_fst_le total i n w f)⟩

theorem fit_free_rel {T m k : Nat} (ws : List Nat) (hT : 0 < T) (hk : k < m) :
    fitRel T ((fitEntries T ws (initInfo m)).getD k ciDefault) (freeSim ws k) := by
  rw [fitEntries_getD T ws _ k ciDefault (by rw [initInfo_length]; exact hk)]
  rw [initInfo_getD hk]
  unfold freeSim
  apply foldl_rel (fitRel T) (fun st p => ciStep T ws.length k p.1 p.2 st)
    (fun st p => freeStep ws.length k p.1 p.2 st) (idxList ws)
    (fun b c a _ hR => ciStep_freeStep_rel hR)
  exact Or.inl ⟨rfl, rfl, rfl, hT⟩

theorem fit_valid_iff {T m k : Nat} (ws : List Nat) (hT : 0 < T) (hk : k < m) :
    ((fitEntries T ws (initInfo m)).getD k ciDefault).valid = true ↔
      candLineLength ws k < T := by
  rcases fit_free_rel ws hT hk with ⟨hv, _, _, hlt⟩ | ⟨hv, hge⟩
  · unfold candLineLength
    exact iff_of_true hv hlt
  · unfold candLineLength
    rw [hv]
    exact iff_of_false (by simp) (by omega)

theorem fit_valid_fields {T m k : Nat} (ws : List Nat) (hT : 0 < T) (hk : k < m)
    (hv : ((fitEntries T ws (initInfo m)).getD k ciDefault).valid = true) :
    ((fitEntries T ws (initInfo m)).getD k ciDefault).lineLength = candLineLength ws k ∧
      ((fitEntries T ws (initInfo m)).getD k ciDefault).columnWidths = (freeSim ws k).2 := by
  rcases fit_free_rel ws hT hk with ⟨_, h1, h2, _⟩ | ⟨hv', _⟩
  · exact ⟨h1, h2⟩
  · rw [hv'] at hv
    cases hv

/-! ### Free simulation: line length is the sum of per-column maxima -/

theorem sum_getD_set {l : List Nat} {j w : Nat} (hj : j < l.length) :
    (l.set j w).sum + l.getD j 0 = l.sum + w := by
  induction l generalizing j with
  | nil => simp at hj
  | cons hd tl ih =>
    cases j with
    | zero => simp [List.set_cons_zero]; omega
    | succ j =>
      simp only [List.set_cons_succ, List.sum_cons, List.getD_cons_succ]
      have := ih (by simpa using hj)
      omega

theorem freeFold_len_sum (total i : Nat) (l : List (Nat × Nat))
    (hmem : ∀ p ∈ l, p.1 < total) (st : Nat × List Nat)
    (hlen : st.2.length = i + 1) (hsum : st.1 = st.2.sum) :
    (l.foldl (fun st p => freeStep total i p.1 p.2 st) st).2.length = i + 1 ∧
      (l.foldl (fun st p => freeStep total i p.1 p.2 st) st).1 =
        (l.foldl (fun st p => freeStep total i p.1 p.2 st) st).2.sum := by
  refine foldl_inv (fun st => st.2.length = i + 1 ∧ st.1 = st.2.sum)
    (fun st p => freeStep total i p.1 p.2 st) l ?_ ⟨hlen, hsum⟩
  intro st p hp ⟨hl, hs⟩
  show ((freeStep total i p.1 p.2 st).2.length = i + 1 ∧ _)
  unfold freeStep
  dsimp only
  have hcol : p.1 / ((total + i) / (i + 1)) ≤ i := col_le (hmem p hp)
  by_cases hold : st.2.getD (p.1 / ((total + i) / (i + 1))) 0 ≤
      (if p.1 / ((total + i) / (i + 1)) ≠ i then p.2 + SPACER else p.2)
  · rw [if_pos hold]
    refine ⟨by simpa using hl, ?_⟩
    have hjlt : p.1 / ((total + i) / (i + 1)) < st.2.length := by omega
    have := sum_getD_set (l := st.2) (j := p.1 / ((total + i) / (i + 1)))
      (w := if p.1 / ((total + i) / (i + 1)) ≠ i then p.2 + SPACER else p.2) hjlt
    dsimp only
    omega
  · rw [if_neg hold]
    exact ⟨hl, hs⟩

theorem freeFold_getD_col (total i col : Nat) (hcol : col ≤ i) :
    ∀ (l : List (Nat × Nat)) (st : Nat × List Nat), st.2.length = i + 1 →
      (∀ p ∈ l, p.1 < total) →
      (l.foldl (fun st p => freeStep total i p.1 p.2 st) st).2.getD col 0 =
        l.foldl
          (fun m p =>
            if p.1 / ((total + i) / (i + 1)) = col then max m (colContribution i p.2 col) else m)
          (st.2.getD col 0)
  | [], _, _, _ => rfl
  | p :: l, st, hlen, hmem => by
    simp only [List.foldl_cons]
    have hplast : p.1 / ((total + i) / (i + 1)) ≤ i := col_le (hmem p (List.mem_cons_self p l))
    have hnext : (freeStep total i p.1 p.2 st).2.length = i + 1 := by
      unfold freeStep
      dsimp only
      split <;> split <;> simp [hlen]
    rw [freeFold_getD_col total i col hcol l _ hnext
      (fun q hq => hmem q (List.mem_cons_of_mem p hq))]
    congr 1
    unfold freeStep
    dsimp only
    by_cases hpc : p.1 / ((total + i) / (i + 1)) = col
    · rw [if_pos hpc]
      by_cases hold : st.2.getD (p.1 / ((total + i) / (i + 1))) 0 ≤
          (if p.1 / ((total + i) / (i + 1)) ≠ i then p.2 + SPACER else p.2)
      · rw [if_pos hold]
        dsimp only
        rw [hpc]
        rw [List.getD_eq_getElem?_getD, List.getElem?_set]
        rw [if_pos rfl, if_pos (by omega)]
        have : colContribution i p.2 col =
            (if col ≠ i then p.2 + SPACER else p.2) := rfl
        rw [hpc] at hold
        unfold colContribution
        simp only [Option.getD_some]
        omega
      · rw [if_neg hold]
        rw [hpc] at hold
        unfold colContribution
        omega
    · rw [if_neg hpc]
      by_cases hold : st.2.getD (p.1 / ((total + i) / (i + 1))) 0 ≤
          (if p.1 / ((total + i) / (i + 1)) ≠ i then p.2 + SPACER else p.2)
      · rw [if_pos hold]
        dsimp only
        rw [List.getD_eq_getElem?_getD, List.getElem?_set_ne hpc, ← List.getD_eq_getElem?_getD]
      · rw [if_neg hold]

theorem freeSim_len (ws : List Nat) (i : Nat) : (freeSim ws i).2.length = i + 1 :=
  (freeFold_len_sum ws.length i (idxList ws) (fun _ hp => idxList_fst_lt hp)
    (0, List.replicate (i + 1) 0) (by simp) (by simp)).1

theorem candLineLength_eq_sum (ws : List Nat) (i : Nat) :
    candLineLength ws i = (freeSim ws i).2.sum :=
  (freeFold_len_sum ws.length i (idxList ws) (fun _ hp => idxList_fst_lt hp)
    (0, List.replicate (i + 1) 0) (by simp) (by simp)).2

theorem freeSim_getD_col (ws : List Nat) (i col : Nat) (hcol : col ≤ i) :
    (freeSim ws i).2.getD col 0 = columnMax ws i col := by
  unfold freeSim columnMax
  rw [freeFold_getD_col ws.length i col hcol (idxList ws) _ (by simp)
    (fun _ hp => idxList_fst_lt hp)]
  congr 1
  simp

theorem freeSim_widths_eq (ws : List Nat) (i : Nat) :
    (freeSim ws i).2 = (List.range (i + 1)).map (columnMax ws i) := by
  apply List.ext_getElem
  · simp [freeSim_len]
  · intro j h1 h2
    have hj : j < i + 1 := by
      have := freeSim_len ws i
      omega
    rw [← List.getD_eq_getElem ((freeSim ws i).2) 0 h1]
    rw [freeSim_getD_col ws i j (by omega)]
    simp [List.getElem_map, List.getElem_range]

theorem candLineLength_eq_sum_columnMax (ws : List Nat) (i : Nat) :
    candLineLength ws i = ((List.range (i + 1)).map (columnMax ws i)).sum := by
  rw [candLineLength_eq_sum, freeSim_widths_eq]

/-! ### Candidate selection, the one-column fallback, ceiling division -/

theorem find_rev_range_spec (p : Nat → Bool) :
    ∀ (m : Nat),
      (∀ j, ((List.range m).reverse.find? p) = some j →
        p j = true ∧ j < m ∧ ∀ k, j < k → k < m → p k = false) ∧
      (((List.range m).reverse.find? p) = none → ∀ k, k < m → p k = false)
  | 0 => by
    constructor
    · intro j h
      simp [List.range_zero] at h
    · intro _ k hk
      omega
  | m + 1 => by
    have ih := find_rev_range_spec p m
    have hrw : (List.range (m + 1)).reverse = m :: (List.range m).reverse := by
      rw [List.range_succ, List.reverse_append]
      rfl
    constructor
    · intro j hj
      rw [hrw] at hj
      by_cases hpm : p m = true
      · rw [List.find?_cons_of_pos _ hpm] at hj
        injection hj with hj
        subst hj
        exact ⟨hpm, by omega, fun k h1 h2 => by omega⟩
      · rw [List.find?_cons_of_neg _ (by simpa using hpm)] at hj
        obtain ⟨h1, h2, h3⟩ := ih.1 j hj
        refine ⟨h1, by omega, fun k hk1 hk2 => ?_⟩
        rcases Nat.lt_succ_iff_lt_or_eq.mp hk2 with hk | rfl
        · exact h3 k hk1 hk
        · simpa using hpm
    · intro hnone k hk
      rw [hrw] at hnone
      by_cases hpm : p m = true
      · rw [List.find?_cons_of_pos _ hpm] at hnone
        cases hnone
      · rw [List.find?_cons_of_neg _ (by simpa using hpm)] at hnone
        rcases Nat.lt_succ_iff_lt_or_eq.mp hk with hk' | rfl
        · exact ih.2 hnone k hk'
        · simpa using hpm

theorem chooseIdx_lt (cis : List ColumnInfo) (h : 0 < cis.length) :
    chooseIdx cis < cis.length := by
  unfold chooseIdx
  rcases hf : ((List.range cis.length).reverse).find?
      (fun i => (cis.getD i ciDefault).valid) with _ | j
  · simpa using h
  · have := (find_rev_range_spec _ cis.length).1 j hf
    simpa using this.2.1

theorem chooseIdx_max (cis : List ColumnInfo) (k : Nat) (h1 : chooseIdx cis < k)
    (h2 : k < cis.length) : (cis.getD k ciDefault).valid = false := by
  unfold chooseIdx at h1
  rcases hf : ((List.range cis.length).reverse).find?
      (fun i => (cis.getD i ciDefault).valid) with _ | j
  · rw [hf] at h1
    exact (find_rev_range_spec _ cis.length).2 hf k h2
  · rw [hf] at h1
    simp only [Option.getD_some] at h1
    exact ((find_rev_range_spec _ cis.length).1 j hf).2.2 k h1 h2

theorem chooseIdx_valid (cis : List ColumnInfo) (j : Nat) (hj : j < cis.length)
    (hv : (cis.getD j ciDefault).valid = true) :
    (cis.getD (chooseIdx cis) ciDefault).valid = true := by
  unfold chooseIdx
  rcases hf : ((List.range cis.length).reverse).find?
      (fun i => (cis.getD i ciDefault).valid) with _ | j'
  · exfalso
    have := (find_rev_range_spec _ cis.length).2 hf j hj
    rw [hv] at this
    cases this
  · simpa using ((find_rev_range_spec _ cis.length).1 j' hf).1

theorem chooseIdx_all_invalid (cis : List ColumnInfo)
    (hall : ∀ j, j < cis.length → (cis.getD j ciDefault).valid = false) :
    chooseIdx cis = 0 := by
  unfold chooseIdx
  rcases hf : ((List.range cis.length).reverse).find?
      (fun i => (cis.getD i ciDefault).valid) with _ | j
  · rfl
  · exfalso
    have hspec := (find_rev_range_spec _ cis.length).1 j hf
    have := hall j hspec.2.1
    rw [this] at hspec
    simpa using hspec.1

theorem ciStep_zero_inv (T total : Nat) (p : Nat × Nat) (hp : p.1 < total) (ci : ColumnInfo)
    (h : ∃ v, ci.columnWidths = [v] ∧ ci.lineLength = v ∧ (ci.valid = false → T ≤ v)) :
    ∃ v, (ciStep T total 0 p.1 p.2 ci).columnWidths = [v] ∧
      (ciStep T total 0 p.1 p.2 ci).lineLength = v ∧
      ((ciStep T total 0 p.1 p.2 ci).valid = false → T ≤ v) := by
  obtain ⟨v, h1, h2, h3⟩ := h
  unfold ciStep
  by_cases hcv : ci.valid = false
  · rw [if_pos hcv]
    exact ⟨v, h1, h2, h3⟩
  · rw [if_neg hcv]
    dsimp only
    have hcol : p.1 / ((total + 0) / (0 + 1)) = 0 := by
      have h4 : (total + 0) / (0 + 1) = total := by simp
      rw [h4]
      exact Nat.div_eq_of_lt hp
    rw [hcol, h1, h2]
    rw [if_neg (show ¬ ((0 : Nat) ≠ 0) from fun hh => hh rfl)]
    simp only [List.getD_cons_zero, List.set_cons_zero]
    by_cases hold : v ≤ p.2
    · rw [if_pos hold]
      refine ⟨p.2, rfl, ?_, ?_⟩
      · dsimp only
        omega
      · dsimp only
        intro hval
        have := of_decide_eq_false hval
        omega
    · rw [if_neg hold]
      exact ⟨v, h1, h2, h3⟩

theorem fit_cand_zero (T : Nat) (ws : List Nat) {m : Nat} (hm : 0 < m) :
    ∃ v, ((fitEntries T ws (initInfo m)).getD 0 ciDefault).columnWidths = [v] ∧
      (((fitEntries T ws (initInfo m)).getD 0 ciDefault).valid = false → T ≤ v) := by
  rw [fitEntries_getD T ws _ 0 ciDefault (by rw [initInfo_length]; exact hm),
    initInfo_getD hm]
  have base : ∃ v, (ColumnInfo.mk true 0 (List.replicate (0 + 1) 0)).columnWidths = [v] ∧
      (ColumnInfo.mk true 0 (List.replicate (0 + 1) 0)).lineLength = v ∧
      ((ColumnInfo.mk true 0 (List.replicate (0 + 1) 0)).valid = false → T ≤ v) :=
    ⟨0, rfl, rfl, fun h => by cases h⟩
  have hP := foldl_inv
    (fun ci : ColumnInfo =>
      ∃ v, ci.columnWidths = [v] ∧ ci.lineLength = v ∧ (ci.valid = false → T ≤ v))
    (fun st p => ciStep T ws.length 0 p.1 p.2 st) (idxList ws)
    (fun ci p hp h => ciStep_zero_inv T ws.length p (idxList_fst_lt hp) ci h)
    base
  obtain ⟨v, hv1, _, hv3⟩ := hP
  exact ⟨v, hv1, hv3⟩

theorem rows_eq_ceilDiv (total i : Nat) : (total + i) / (i + 1) = ceilDiv total (i + 1) := by
  unfold ceilDiv
  have h : total + (i + 1) - 1 = total + i := by omega
  rw [h]

theorem div_add_ite_eq_ceilDiv (n k : Nat) (hk : 0 < k) :
    n / k + (if n % k ≠ 0 then 1 else 0) = ceilDiv n k := by
  unfold ceilDiv
  have hkk : n + k - 1 = n + (k - 1) := by omega
  rw [hkk, Nat.add_div hk]
  have h1 : (k - 1) / k = 0 := Nat.div_eq_of_lt (by omega)
  have h2 : (k - 1) % k = k - 1 := Nat.mod_eq_of_lt (by omega)
  rw [h1, h2]
  have hm := Nat.mod_lt n hk
  split_ifs <;> omega

theorem ceilDiv_le (n k : Nat) (hk : 0 < k) : ceilDiv n k ≤ n := by
  unfold ceilDiv
  have hlt : (n + k - 1) / k < n + 1 := by
    rw [Nat.div_lt_iff_lt_mul hk, Nat.succ_mul]
    have : n ≤ n * k := Nat.le_mul_of_pos_right n hk
    omega
  omega

theorem ceilDiv_pos (n k : Nat) (hn : 0 < n) (hk : 0 < k) : 0 < ceilDiv n k := by
  unfold ceilDiv
  show 1 ≤ (n + k - 1) / k
  rw [Nat.one_le_div_iff hk]
  omega

theorem determineColumnWidthsW_main (ws : List Nat) (T : Nat) (h1 : ¬ ws.length ≤ 1)
    (h2 : ¬ numPossibleW ws T ≤ 1) :
    determineColumnWidthsW ws T =
      ((fitEntries T ws (initInfo (numPossibleW ws T))).getD
        (chooseIdx (fitEntries T ws (initInfo (numPossibleW ws T)))) ciDefault).columnWidths := by
  unfold determineColumnWidthsW
  rw [if_neg h1, if_neg h2]

theorem T_pos_of_numPossible {ws : List Nat} {T : Nat} (h : 2 ≤ numPossibleW ws T) :
    0 < T := by
  unfold numPossibleW at h
  have := Nat.div_le_self T (determine_min_column_width_of ws T)
  omega

theorem fitEntries_initInfo_length (T : Nat) (ws : List Nat) (m : Nat) :
    (fitEntries T ws (initInfo m)).length = m := by
  rw [fitEntries_length, initInfo_length]

/-! ### Renderer characterization -/

theorem renderLineAux_spec (dw : Nat → Nat) (numLines total : Nat) :
    ∀ (ws : List Nat) (i : Nat) (cells : List (Nat × Nat)),
      cells = renderLineAux dw numLines total ws i → ws ≠ [] →
      cells ≠ [] ∧
      (∀ j, j < cells.length → (cells.getD j (0, 0)).1 = i + j * numLines) ∧
      (∀ j, j + 1 < cells.length →
        (cells.getD j (0, 0)).2 = ws.getD j 0 - dw (i + j * numLines)) ∧
      (cells.getD (cells.length - 1) (0, 0)).2 = 0 ∧
      (∀ j, j + 1 < cells.length → i + (j + 1) * numLines < total ∧ ws.getD (j + 1) 0 ≠ 0) ∧
      ¬(i + cells.length * numLines < total ∧ ws.getD cells.length 0 ≠ 0)
  | [], i, cells, hc, hne => absurd rfl hne
  | w :: rest, i, cells, hc, _ => by
    rw [renderLineAux.eq_def] at hc
    simp only at hc
    by_cases hstop1 : total ≤ i + numLines
    · rw [if_pos hstop1] at hc
      subst hc
      refine ⟨by simp, ?_, ?_, by simp, ?_, ?_⟩
      · intro j hj
        simp only [List.length_singleton] at hj
        interval_cases j
        simp
      · intro j hj
        simp only [List.length_singleton] at hj
        omega
      · intro j hj
        simp only [List.length_singleton] at hj
        omega
      · simp only [List.length_singleton, Nat.one_mul]
        intro hfoo
        omega
    · rw [if_neg hstop1] at hc
      rcases rest with _ | ⟨w', rest'⟩
      · subst hc
        refine ⟨by simp, ?_, ?_, by simp, ?_, ?_⟩
        · intro j hj
          simp only [List.length_singleton] at hj
          interval_cases j
          simp
        · intro j hj
          simp only [List.length_singleton] at hj
          omega
        · intro j hj
          simp only [List.length_singleton] at hj
          omega
        · simp
      · simp only at hc
        by_cases hz : w' = 0
        · rw [if_pos hz] at hc
          subst hc
          refine ⟨by simp, ?_, ?_, by simp, ?_, ?_⟩
          · intro j hj
            simp only [List.length_singleton] at hj
            interval_cases j
            simp
          · intro j hj
            simp only [List.length_singleton] at hj
            omega
          · intro j hj
            simp only [List.length_singleton] at hj
            omega
          · simp only [List.length_singleton, Nat.one_mul]
            intro hfoo
            exact hfoo.2 (by simpa using hz)
        · rw [if_neg hz] at hc
          obtain ⟨ih1, ih2, ih3, ih4, ih5, ih6⟩ :=
            renderLineAux_spec dw numLines total (w' :: rest') (i + numLines)
              (renderLineAux dw numLines total (w' :: rest') (i + numLines)) rfl (by simp)
          subst hc
          set cells' := renderLineAux dw numLines total (w' :: rest') (i + numLines) with hcells
          have hlen' : 1 ≤ cells'.length := by
            rcases hq : cells' with _ | _
            · exact absurd hq ih1
            · simp
          refine ⟨by simp, ?_, ?_, ?_, ?_, ?_⟩
          · intro j hj
            cases j with
            | zero => simp
            | succ j =>
              simp only [List.getD_cons_succ]
              rw [ih2 j (by simpa using hj)]
              ring
          · intro j hj
            cases j with
            | zero => simp
            | succ j =>
              simp only [List.getD_cons_succ]
              rw [ih3 j (by simpa using hj)]
              have harg : i + numLines + j * numLines = i + (j + 1) * numLines := by ring
              rw [harg]
          · simp only [List.length_cons]
            have : cells'.length + 1 - 1 = (cells'.length - 1) + 1 := by omega
            rw [this, List.getD_cons_succ]
            exact ih4
          · intro j hj
            cases j with
            | zero =>
              constructor
              · simpa using hstop1
              · simpa using hz
            | succ j =>
              have := ih5 j (by simpa using hj)
              constructor
              · have h1 := this.1
                ring_nf at h1 ⊢
                omega
              · simpa using this.2
          · simp only [List.length_cons]
            intro hfoo
            apply ih6
            constructor
            · have := hfoo.1
              ring_nf at this ⊢
              omega
            · simpa using hfoo.2

/-! ## Claims -/

/-! ### Color resolution (C1) and the sort engine (C5-C9) -/

theorem nameLe_imp_spec {a b : Entry} (h : cmpLe sorter_dirs_first a b) : nameSpecLe a b := by
  unfold cmpLe sorter_dirs_first at h
  unfold nameSpecLe
  cases ha : a.is_dir <;> cases hb : b.is_dir <;> rw [ha, hb] at h <;> simp_all

theorem extLe_imp_spec {a b : Entry} (h : cmpLe sorter_fn_extension a b) : extSpecLe a b := by
  unfold cmpLe at h
  unfold extSpecLe
  cases ha : a.is_dir <;> cases hb : b.is_dir
  · -- both non-directories
    rw [sorter_fn_extension_nondir ha hb] at h
    refine Or.inr (Or.inr ⟨rfl, rfl, ?_⟩)
    rcases hea : get_filename_ext a.name with _ | a_ext <;>
      rcases heb : get_filename_ext b.name with _ | b_ext <;>
      rw [hea, heb] at h <;> simp only at h
    · rw [sorter_dirs_first_same_class (ha.trans hb.symm)] at h
      exact Or.inr (Or.inr ⟨Or.inl ⟨rfl, rfl⟩, h⟩)
    · simp
    · exact absurd rfl h
    · by_cases he : cmpChars (toLowerL a_ext) (toLowerL b_ext) = .eq
      · rw [if_pos he] at h
        rw [sorter_dirs_first_same_class (ha.trans hb.symm)] at h
        exact Or.inr (Or.inr ⟨Or.inr ⟨a_ext, b_ext, rfl, rfl, cmpChars_eq_iff.mp he⟩, h⟩)
      · rw [if_neg he] at h
        rcases hv : cmpChars (toLowerL a_ext) (toLowerL b_ext) with _ | _ | _
        · exact Or.inr (Or.inl ⟨a_ext, b_ext, rfl, rfl, hv⟩)
        · exact absurd hv he
        · exact absurd hv h
  · -- a non-directory, b directory: impossible under the hypothesis
    exfalso
    apply h
    rw [sorter_fn_extension_of_dir (Or.inr hb)]
    exact (sorter_dirs_first_dir_nondir hb ha).2
  · exact Or.inl ⟨rfl, rfl⟩
  · rw [sorter_fn_extension_of_dir (Or.inl ha),
      sorter_dirs_first_same_class (ha.trans hb.symm)] at h
    exact Or.inr (Or.inl ⟨rfl, rfl, h⟩)

/-- C1 (corrected): with colors enabled, for a regular file the mode
bits are checked in the order setuid, setgid, sticky, but the
filename-extension table is consulted BEFORE the executable bit: an
entry that is both executable and has a configured extension color
resolves to the extension color, and the mode-table exec color applies
only when no extension color matched. -/
theorem claim_C1 (e : Entry) (s : Settings) (hc : s.color = true)
    (hf : metadata_filetype e = FT_FILE) :
    (e.is_suid = true →
      colorize e s = format_color (s.color_by_mode.getD FM_SUID 0) s.bold) ∧
    (e.is_suid = false → e.is_sgid = true →
      colorize e s = format_color (s.color_by_mode.getD FM_SGID 0) s.bold) ∧
    (e.is_suid = false → e.is_sgid = false → e.is_sticky = true →
      colorize e s = format_color (s.color_by_mode.getD FM_STICKY 0) s.bold) ∧
    (∀ c, e.is_suid = false → e.is_sgid = false → e.is_sticky = false →
      color_by_ext e.name s = some c →
      colorize e s = format_color c s.bold) ∧
    (e.is_suid = false → e.is_sgid = false → e.is_sticky = false →
      color_by_ext e.name s = none → e.is_exec = true →
      colorize e s = format_color (s.color_by_mode.getD FM_EXEC 0) s.bold) := by
  unfold colorize
  rw [if_neg (by simp [hc])]
  dsimp only
  rw [hf]
  rw [if_neg (by simp [FT_FILE, FT_DIR])]
  rw [if_pos rfl]
  refine ⟨?_, ?_, ?_, ?_, ?_⟩
  · intro h
    rw [if_pos h]
  · intro h1 h2
    rw [if_neg (by simp [h1]), if_pos h2]
  · intro h1 h2 h3
    rw [if_neg (by simp [h1]), if_neg (by simp [h2]), if_pos h3]
  · intro c h1 h2 h3 hext
    rw [if_neg (by simp [h1]), if_neg (by simp [h2]), if_neg (by simp [h3]), hext]
  · intro h1 h2 h3 hext h4
    rw [if_neg (by simp [h1]), if_neg (by simp [h2]), if_neg (by simp [h3]), hext, if_pos h4]

/-- C1 witness: a plain setuid-free, non-sticky executable file `x.zip`
whose extension has a configured color resolves to that extension
color. -/
theorem claim_C1_witness :
    ({ color := true, bold := false, all := false, classify := true, long := true,
       one := false, sort_by_size := false, sort_by_time := false,
       sort_by_extension := false, sort_reverse := false,
       color_by_extension := [("zip".toList, 31)],
       color_by_filetype := [0, 0, 0, 0, 0, 0, 0],
       color_by_mode := [32, 33, 34, 35] } : Settings).color = true ∧
    metadata_filetype ⟨"x.zip".toList, 0o100755, 1, 0, none⟩ = FT_FILE ∧
    colorize ⟨"x.zip".toList, 0o100755, 1, 0, none⟩
      { color := true, bold := false, all := false, classify := true, long := true,
        one := false, sort_by_size := false, sort_by_time := false,
        sort_by_extension := false, sort_reverse := false,
        color_by_extension := [("zip".toList, 31)],
        color_by_filetype := [0, 0, 0, 0, 0, 0, 0],
        color_by_mode := [32, 33, 34, 35] } = format_color 31 false :=
  ⟨rfl, by decide,
    (claim_C1 ⟨"x.zip".toList, 0o100755, 1, 0, none⟩ _ rfl (by decide)).2.2.2.1 31
      (by decide) (by decide) (by decide) (by decide)⟩

/-- C1 counterexample: the claim as stated (exec before extension) is
false: this executable file with a configured `zip` extension color
resolves to the extension color 31, not the mode-table exec color 32. -/
theorem claim_C1_counterexample :
    (⟨"x.zip".toList, 0o100755, 1, 0, none⟩ : Entry).is_exec = true ∧
    colorize ⟨"x.zip".toList, 0o100755, 1, 0, none⟩
      { color := true, bold := false, all := false, classify := true, long := true,
        one := false, sort_by_size := false, sort_by_time := false,
        sort_by_extension := false, sort_reverse := false,
        color_by_extension := [("zip".toList, 31)],
        color_by_filetype := [0, 0, 0, 0, 0, 0, 0],
        color_by_mode := [32, 33, 34, 35] } = format_color 31 false ∧
    format_color 31 false ≠ format_color 32 false := by
  refine ⟨by decide, by decide, ?_⟩
  decide

/-- C5: under the default Name key, non-reverse, the sorted output is
ordered by the directories-first, case-insensitive code-point rule, and
the entries `a.txt` (file), `zdir` (directory), `B.TXT` (file) sort to
`zdir`, `a.txt`, `B.TXT`. -/
theorem claim_C5 (s : Settings) (l : List Entry)
    (h1 : s.sort_by_size = false) (h2 : s.sort_by_time = false)
    (h3 : s.sort_by_extension = false) (h4 : s.sort_reverse = false) :
    List.Pairwise nameSpecLe (sort_entries s l) ∧
    sort_entries s
      [⟨"a.txt".toList, 0o100644, 5, 0, none⟩, ⟨"zdir".toList, 0o040755, 0, 0, none⟩,
       ⟨"B.TXT".toList, 0o100644, 900000, 0, none⟩] =
      [⟨"zdir".toList, 0o040755, 0, 0, none⟩, ⟨"a.txt".toList, 0o100644, 5, 0, none⟩,
       ⟨"B.TXT".toList, 0o100644, 900000, 0, none⟩] := by
  have hsorted : ∀ (l' : List Entry),
      List.Pairwise (cmpLe sorter_dirs_first) (List.insertionSort (cmpLe sorter_dirs_first) l') :=
    @List.sorted_insertionSort Entry (cmpLe sorter_dirs_first) _
      ⟨nameLe_total⟩ ⟨fun _ _ _ => nameLe_trans⟩
  constructor
  · simp only [sort_entries, h1, h2, h3, h4, Bool.false_eq_true, if_false]
    exact (hsorted l).imp (fun h => nameLe_imp_spec h)
  · simp only [sort_entries, h1, h2, h3, h4, Bool.false_eq_true, if_false]
    decide

/-- C5 witness at the default settings. -/
theorem claim_C5_witness :
    Settings.default.sort_by_size = false ∧ Settings.default.sort_by_time = false ∧
    Settings.default.sort_by_extension = false ∧ Settings.default.sort_reverse = false ∧
    sort_entries Settings.default
      [⟨"a.txt".toList, 0o100644, 5, 0, none⟩, ⟨"zdir".toList, 0o040755, 0, 0, none⟩,
       ⟨"B.TXT".toList, 0o100644, 900000, 0, none⟩] =
      [⟨"zdir".toList, 0o040755, 0, 0, none⟩, ⟨"a.txt".toList, 0o100644, 5, 0, none⟩,
       ⟨"B.TXT".toList, 0o100644, 900000, 0, none⟩] :=
  ⟨rfl, rfl, rfl, rfl, (claim_C5 Settings.default [] rfl rfl rfl rfl).2⟩

theorem nameLeRev_total (a b : Entry) :
    cmpLe (fun x y => sorter_dirs_first y x) a b ∨
      cmpLe (fun x y => sorter_dirs_first y x) b a := by
  show cmpLe sorter_dirs_first b a ∨ cmpLe sorter_dirs_first a b
  exact nameLe_total b a

theorem nameLeRev_trans {a b c : Entry}
    (h1 : cmpLe (fun x y => sorter_dirs_first y x) a b)
    (h2 : cmpLe (fun x y => sorter_dirs_first y x) b c) :
    cmpLe (fun x y => sorter_dirs_first y x) a c := by
  show cmpLe sorter_dirs_first c a
  exact nameLe_trans (show cmpLe sorter_dirs_first c b from h2)
    (show cmpLe sorter_dirs_first b a from h1)

theorem extLeRev_total (a b : Entry) :
    cmpLe (fun x y => sorter_fn_extension y x) a b ∨
      cmpLe (fun x y => sorter_fn_extension y x) b a := by
  show cmpLe sorter_fn_extension b a ∨ cmpLe sorter_fn_extension a b
  exact extLe_total b a

theorem extLeRev_trans {a b c : Entry}
    (h1 : cmpLe (fun x y => sorter_fn_extension y x) a b)
    (h2 : cmpLe (fun x y => sorter_fn_extension y x) b c) :
    cmpLe (fun x y => sorter_fn_extension y x) a c := by
  show cmpLe sorter_fn_extension c a
  exact extLe_trans (show cmpLe sorter_fn_extension c b from h2)
    (show cmpLe sorter_fn_extension b a from h1)

/-- C6: at the comparator level, a directory always sorts strictly
before a non-directory under both the Name and the Extension rule; at
the output level, for the Name and Extension keys, non-reverse sorting
never places a non-directory before a directory, and `sort_reverse`
inverts the comparator globally, so reverse sorting puts directories
last. -/
theorem claim_C6 (s : Settings) (l : List Entry) :
    (∀ a b : Entry, a.is_dir = true → b.is_dir = false →
      sorter_dirs_first a b = .lt ∧ sorter_dirs_first b a = .gt ∧
      sorter_fn_extension a b = .lt ∧ sorter_fn_extension b a = .gt) ∧
    (s.sort_by_size = false → s.sort_by_time = false → s.sort_reverse = false →
      List.Pairwise (fun a b : Entry => b.is_dir = true → a.is_dir = true)
        (sort_entries s l)) ∧
    (s.sort_by_size = false → s.sort_by_time = false → s.sort_reverse = true →
      List.Pairwise (fun a b : Entry => a.is_dir = true → b.is_dir = true)
        (sort_entries s l)) := by
  refine ⟨?_, ?_, ?_⟩
  · intro a b ha hb
    obtain ⟨g1, g2⟩ := sorter_dirs_first_dir_nondir ha hb
    refine ⟨g1, g2, ?_, ?_⟩
    · rw [sorter_fn_extension_of_dir (Or.inl ha)]
      exact g1
    · rw [sorter_fn_extension_of_dir (Or.inr ha)]
      exact g2
  · intro h1 h2 h4
    by_cases h3 : s.sort_by_extension = true
    · simp only [sort_entries, h1, h2, h3, h4, Bool.false_eq_true, if_false, if_true]
      have hsorted :=
        @List.sorted_insertionSort Entry (cmpLe sorter_fn_extension) _
          ⟨extLe_total⟩ ⟨fun _ _ _ => extLe_trans⟩ l
      refine hsorted.imp (fun {a b} h => ?_)
      intro hbd
      by_contra had
      apply h
      rw [sorter_fn_extension_of_dir (Or.inr hbd)]
      exact (sorter_dirs_first_dir_nondir hbd (by simpa using had)).2
    · replace h3 : s.sort_by_extension = false := by simpa using h3
      simp only [sort_entries, h1, h2, h3, h4, Bool.false_eq_true, if_false]
      have hsorted :=
        @List.sorted_insertionSort Entry (cmpLe sorter_dirs_first) _
          ⟨nameLe_total⟩ ⟨fun _ _ _ => nameLe_trans⟩ l
      refine hsorted.imp (fun {a b} h => ?_)
      intro hbd
      by_contra had
      apply h
      unfold cmpLe at *
      exact (sorter_dirs_first_dir_nondir hbd (by simpa using had)).2
  · intro h1 h2 h4
    by_cases h3 : s.sort_by_extension = true
    · simp only [sort_entries, h1, h2, h3, h4, Bool.false_eq_true, if_false, if_true]
      have hsorted :=
        @List.sorted_insertionSort Entry (cmpLe (fun x y => sorter_fn_extension y x)) _
          ⟨extLeRev_total⟩ ⟨fun _ _ _ => extLeRev_trans⟩ l
      refine hsorted.imp (fun {a b} h => ?_)
      intro had
      by_contra hbd
      apply h
      show sorter_fn_extension b a = .gt
      rw [sorter_fn_extension_of_dir (Or.inr had)]
      exact (sorter_dirs_first_dir_nondir had (by simpa using hbd)).2
    · replace h3 : s.sort_by_extension = false := by simpa using h3
      simp only [sort_entries, h1, h2, h3, h4, Bool.false_eq_true, if_false]
      have hsorted :=
        @List.sorted_insertionSort Entry (cmpLe (fun x y => sorter_dirs_first y x)) _
          ⟨nameLeRev_total⟩ ⟨fun _ _ _ => nameLeRev_trans⟩ l
      refine hsorted.imp (fun {a b} h => ?_)
      intro had
      by_contra hbd
      apply h
      show sorter_dirs_first b a = .gt
      exact (sorter_dirs_first_dir_nondir had (by simpa using hbd)).2

/-- C6 witness: the comparator-level facts at a concrete directory and
file. -/
theorem claim_C6_witness :
    sorter_dirs_first ⟨"zdir".toList, 0o040755, 0, 0, none⟩
        ⟨"a.txt".toList, 0o100644, 5, 0, none⟩ = .lt ∧
    sorter_dirs_first ⟨"a.txt".toList, 0o100644, 5, 0, none⟩
        ⟨"zdir".toList, 0o040755, 0, 0, none⟩ = .gt ∧
    sorter_fn_extension ⟨"zdir".toList, 0o040755, 0, 0, none⟩
        ⟨"a.txt".toList, 0o100644, 5, 0, none⟩ = .lt ∧
    sorter_fn_extension ⟨"a.txt".toList, 0o100644, 5, 0, none⟩
        ⟨"zdir".toList, 0o040755, 0, 0, none⟩ = .gt :=
  (claim_C6 Settings.default []).1 ⟨"zdir".toList, 0o040755, 0, 0, none⟩
    ⟨"a.txt".toList, 0o100644, 5, 0, none⟩ (by decide) (by decide)

/-- C7: under the Extension key directories sort first by the name rule
(dots in directory names never make an extension), non-directories sort
by lowercased extension with no-extension first and name-rule
tie-breaks, and `file.B`, `file.a`, `dir.x`(directory) sort to `dir.x`,
`file.a`, `file.B`. -/
theorem claim_C7 (s : Settings) (l : List Entry)
    (h1 : s.sort_by_size = false) (h2 : s.sort_by_time = false)
    (h3 : s.sort_by_extension = true) (h4 : s.sort_reverse = false) :
    (∀ a b : Entry, a.is_dir = true ∨ b.is_dir = true →
      sorter_fn_extension a b = sorter_dirs_first a b) ∧
    List.Pairwise extSpecLe (sort_entries s l) ∧
    sort_entries s
      [⟨"file.B".toList, 0o100644, 1, 0, none⟩, ⟨"file.a".toList, 0o100644, 1, 0, none⟩,
       ⟨"dir.x".toList, 0o040755, 0, 0, none⟩] =
      [⟨"dir.x".toList, 0o040755, 0, 0, none⟩, ⟨"file.a".toList, 0o100644, 1, 0, none⟩,
       ⟨"file.B".toList, 0o100644, 1, 0, none⟩] := by
  refine ⟨fun a b h => sorter_fn_extension_of_dir h, ?_, ?_⟩
  · simp only [sort_entries, h1, h2, h3, h4, Bool.false_eq_true, if_false, if_true]
    have hsorted :=
      @List.sorted_insertionSort Entry (cmpLe sorter_fn_extension) _
        ⟨extLe_total⟩ ⟨fun _ _ _ => extLe_trans⟩ l
    exact hsorted.imp (fun h => extLe_imp_spec h)
  · simp only [sort_entries, h1, h2, h3, h4, Bool.false_eq_true, if_false, if_true]
    decide

/-- C7 witness at the extension-sort settings. -/
theorem claim_C7_witness :
    ({ Settings.default with sort_by_extension := true } : Settings).sort_by_size = false ∧
    ({ Settings.default with sort_by_extension := true } : Settings).sort_by_time = false ∧
    ({ Settings.default with sort_by_extension := true } : Settings).sort_by_extension = true ∧
    ({ Settings.default with sort_by_extension := true } : Settings).sort_reverse = false ∧
    sort_entries { Settings.default with sort_by_extension := true }
      [⟨"file.B".toList, 0o100644, 1, 0, none⟩, ⟨"file.a".toList, 0o100644, 1, 0, none⟩,
       ⟨"dir.x".toList, 0o040755, 0, 0, none⟩] =
      [⟨"dir.x".toList, 0o040755, 0, 0, none⟩, ⟨"file.a".toList, 0o100644, 1, 0, none⟩,
       ⟨"file.B".toList, 0o100644, 1, 0, none⟩] :=
  ⟨rfl, rfl, rfl, rfl,
    (claim_C7 { Settings.default with sort_by_extension := true } [] rfl rfl rfl rfl).2.2⟩

/-- C8: sorting with the Name key (in either direction) is idempotent. -/
theorem claim_C8 (s : Settings) (l : List Entry)
    (h1 : s.sort_by_size = false) (h2 : s.sort_by_time = false)
    (h3 : s.sort_by_extension = false) :
    sort_entries s (sort_entries s l) = sort_entries s l := by
  simp only [sort_entries, h1, h2, h3, Bool.false_eq_true, if_false]
  by_cases hr : s.sort_reverse = true
  · simp only [hr, if_true]
    apply List.Sorted.insertionSort_eq
    exact @List.sorted_insertionSort Entry (cmpLe (fun x y => sorter_dirs_first y x)) _
      ⟨nameLeRev_total⟩ ⟨fun _ _ _ => nameLeRev_trans⟩ l
  · replace hr : s.sort_reverse = false := by simpa using hr
    simp only [hr, Bool.false_eq_true, if_false]
    apply List.Sorted.insertionSort_eq
    exact @List.sorted_insertionSort Entry (cmpLe sorter_dirs_first) _
      ⟨nameLe_total⟩ ⟨fun _ _ _ => nameLe_trans⟩ l

/-- C8 witness at the default settings on a two-entry list. -/
theorem claim_C8_witness :
    Settings.default.sort_by_size = false ∧ Settings.default.sort_by_time = false ∧
    Settings.default.sort_by_extension = false ∧
    sort_entries Settings.default
        (sort_entries Settings.default
          [⟨"b".toList, 0o100644, 1, 0, none⟩, ⟨"a".toList, 0o100644, 1, 0, none⟩]) =
      sort_entries Settings.default
        [⟨"b".toList, 0o100644, 1, 0, none⟩, ⟨"a".toList, 0o100644, 1, 0, none⟩] :=
  ⟨rfl, rfl, rfl,
    claim_C8 Settings.default
      [⟨"b".toList, 0o100644, 1, 0, none⟩, ⟨"a".toList, 0o100644, 1, 0, none⟩] rfl rfl rfl⟩

/-- C9: extension extraction returns the substring after the final dot
whenever the name contains one — including a leading dot, so `.bashrc`
yields extension `bashrc` and hidden dotfiles take part in
extension-based coloring — and returns nothing for dotless names. -/
theorem claim_C9 :
    (∀ name : List Char, '.' ∈ name → get_filename_ext name = some (afterLastDot name)) ∧
    (∀ name : List Char, '.' ∉ name → get_filename_ext name = none) ∧
    get_filename_ext ".bashrc".toList = some "bashrc".toList ∧
    (∀ (s : Settings) (name : List Char), '.' ∈ name →
      color_by_ext name s = s.color_by_extension.lookup (toLowerL (afterLastDot name))) := by
  refine ⟨fun name h => get_filename_ext_of_dot h, fun name h => get_filename_ext_of_no_dot h,
    by decide, ?_⟩
  intro s name h
  unfold color_by_ext
  rw [get_filename_ext_of_dot h]

/-- C9 witness: the hidden dotfile `.bashrc`. -/
theorem claim_C9_witness :
    ('.' ∈ ".bashrc".toList) ∧ get_filename_ext ".bashrc".toList =
      some (afterLastDot ".bashrc".toList) :=
  ⟨by decide, claim_C9.1 ".bashrc".toList (by decide)⟩

/-! ### Column layout (C2-C4, C10) -/

theorem ciStep_widths_length (T total i n w : Nat) (ci : ColumnInfo) :
    (ciStep T total i n w ci).columnWidths.length = ci.columnWidths.length := by
  unfold ciStep
  split
  · rfl
  · dsimp only
    split <;> split <;> simp

theorem fit_widths_length (T : Nat) (ws : List Nat) {m k : Nat} (hk : k < m) :
    ((fitEntries T ws (initInfo m)).getD k ciDefault).columnWidths.length = k + 1 := by
  rw [fitEntries_getD T ws _ k ciDefault (by rw [initInfo_length]; exact hk),
    initInfo_getD hk]
  have base : (ColumnInfo.mk true 0 (List.replicate (k + 1) 0)).columnWidths.length = k + 1 := by
    simp
  exact foldl_inv (fun ci : ColumnInfo => ci.columnWidths.length = k + 1)
    (fun st p => ciStep T ws.length k p.1 p.2 st) (idxList ws)
    (fun ci p _ h => by
      show (ciStep T ws.length k p.1 p.2 ci).columnWidths.length = k + 1
      rw [ciStep_widths_length]
      exact h)
    base

theorem determineColumnWidthsW_length_pos (ws : List Nat) (T : Nat) :
    0 < (determineColumnWidthsW ws T).length := by
  unfold determineColumnWidthsW
  split
  · simp
  · split
    · simp
    · rename_i h1 h2
      have hlen : (fitEntries T ws (initInfo (numPossibleW ws T))).length = numPossibleW ws T :=
        fitEntries_initInfo_length T ws _
      have hc : chooseIdx (fitEntries T ws (initInfo (numPossibleW ws T))) < numPossibleW ws T := by
        have := chooseIdx_lt (fitEntries T ws (initInfo (numPossibleW ws T)))
          (by rw [hlen]; omega)
        rwa [hlen] at this
      rw [fit_widths_length T ws hc]
      omega

theorem determine_column_widths_length_pos (entries : List Entry) (s : Settings) (T : Nat) :
    0 < (determine_column_widths entries s T).length :=
  determineColumnWidthsW_length_pos _ _

theorem num_lines_eq (entries : List Entry) (s : Settings) (T : Nat) :
    num_lines entries s T =
      ceilDiv entries.length (determine_column_widths entries s T).length := by
  unfold num_lines
  exact div_add_ite_eq_ceilDiv _ _ (determine_column_widths_length_pos entries s T)

/-- C2 (corrected): a candidate column count becomes invalid as soon as
its running line length REACHES OR EXCEEDS the terminal width (the code
requires `line_length < term_width` strictly, so a line of width
exactly `T` is invalidated, unlike the claim's "exceeds"); once invalid
it is never revisited; every simulated Column Plan sums strictly below
`T`; and the chosen `k` is maximal among the candidates `1..num_possible`
under that strict criterion. -/
theorem claim_C2 (entries : List Entry) (s : Settings) (T : Nat)
    (h2 : 2 ≤ (displayWidths entries s).length)
    (hm : 2 ≤ numPossibleW (displayWidths entries s) T) :
    C2Prop (displayWidths entries s) T := by
  set ws := displayWidths entries s with hws
  have hT : 0 < T := T_pos_of_numPossible hm
  unfold C2Prop
  dsimp only
  have hlen : (fitEntries T ws (initInfo (numPossibleW ws T))).length = numPossibleW ws T :=
    fitEntries_initInfo_length T ws _
  have hclt : chooseIdx (fitEntries T ws (initInfo (numPossibleW ws T))) < numPossibleW ws T := by
    have := chooseIdx_lt (fitEntries T ws (initInfo (numPossibleW ws T))) (by rw [hlen]; omega)
    rwa [hlen] at this
  refine ⟨?_, ?_, ?_, ?_, ?_⟩
  · intro i hi
    have hiff := fit_valid_iff (m := numPossibleW ws T) ws hT hi
    constructor
    · intro hfalse
      by_contra hcon
      push_neg at hcon
      have := hiff.mpr hcon
      rw [hfalse] at this
      simp at this
    · intro hge
      cases hval : ((fitEntries T ws (initInfo (numPossibleW ws T))).getD i ciDefault).valid with
      | false => rfl
      | true =>
        have := hiff.mp hval
        omega
  · intro i
    exact candLineLength_eq_sum_columnMax ws i
  · intro T' total i n w ci h
    unfold ciStep
    rw [if_pos h]
  · intro hvalid
    obtain ⟨hll, hwid⟩ := fit_valid_fields (m := numPossibleW ws T) ws hT hclt hvalid
    have hmain := determineColumnWidthsW_main ws T (by omega) (by omega)
    have hcand : candLineLength ws (chooseIdx (fitEntries T ws (initInfo (numPossibleW ws T)))) < T :=
      (fit_valid_iff (m := numPossibleW ws T) ws hT hclt).mp hvalid
    refine ⟨?_, ?_, ?_⟩
    · rw [hmain, hwid, freeSim_widths_eq]
    · rw [hmain, hwid]
      exact (candLineLength_eq_sum ws _).symm
    · rw [hmain, hwid, ← candLineLength_eq_sum ws _]
      exact hcand
  · intro j hcj hjm
    have hinv : ((fitEntries T ws (initInfo (numPossibleW ws T))).getD j ciDefault).valid = false :=
      chooseIdx_max (fitEntries T ws (initInfo (numPossibleW ws T))) j hcj (by omega)
    have hiff := fit_valid_iff (m := numPossibleW ws T) ws hT hjm
    by_contra hcon
    push_neg at hcon
    have := hiff.mpr hcon
    rw [hinv] at this
    simp at this

/-- C2 witness: two files of display widths 2 and 16 in a 20-column
terminal. -/
theorem claim_C2_witness :
    2 ≤ (displayWidths [⟨"ab".toList, 0o100644, 1, 0, none⟩,
      ⟨"abcdefghijklmnop".toList, 0o100644, 1, 0, none⟩] wideSettings).length ∧
    2 ≤ numPossibleW (displayWidths [⟨"ab".toList, 0o100644, 1, 0, none⟩,
      ⟨"abcdefghijklmnop".toList, 0o100644, 1, 0, none⟩] wideSettings) 20 ∧
    C2Prop (displayWidths [⟨"ab".toList, 0o100644, 1, 0, none⟩,
      ⟨"abcdefghijklmnop".toList, 0o100644, 1, 0, none⟩] wideSettings) 20 :=
  ⟨by decide, by decide, claim_C2 _ _ _ (by decide) (by decide)⟩

/-- C2 counterexample to the claim as stated: for files of display
widths 2 and 16 in a 20-column terminal the two-column candidate's
running line length is exactly 20 = T — it never exceeds T, and its
total width sum is ≤ T — yet the algorithm marks it invalid and
returns the one-column plan, so the chosen k is not maximal under the
claim's "exceeds" reading. -/
theorem claim_C2_counterexample :
    displayWidths [⟨"ab".toList, 0o100644, 1, 0, none⟩,
        ⟨"abcdefghijklmnop".toList, 0o100644, 1, 0, none⟩] wideSettings = [2, 16] ∧
    numPossibleW [2, 16] 20 = 5 ∧
    candLineLength [2, 16] 1 = 20 ∧
    ((fitEntries 20 [2, 16] (initInfo 5)).getD 1 ciDefault).valid = false ∧
    determineColumnWidthsW [2, 16] 20 = [16] := by
  refine ⟨by decide, by decide, by decide, by decide, by decide⟩

/-- C3 (corrected): with at most one entry, or when
`T / min_width ≤ 1`, the result is a single column spanning the whole
terminal width; but when no candidate remained valid the algorithm
returns the one-column candidate's simulated width — a single column of
width at least `T` (frozen at the width that invalidated it), not a
column spanning `T`. -/
theorem claim_C3 (entries : List Entry) (s : Settings) (T : Nat) :
    (entries.length ≤ 1 → determine_column_widths entries s T = [T]) ∧
    (numPossibleW (displayWidths entries s) T ≤ 1 →
      determine_column_widths entries s T = [T]) ∧
    (¬ entries.length ≤ 1 → ¬ numPossibleW (displayWidths entries s) T ≤ 1 →
      (∀ j, j < numPossibleW (displayWidths entries s) T →
        ((fitEntries T (displayWidths entries s)
          (initInfo (numPossibleW (displayWidths entries s) T))).getD j ciDefault).valid
            = false) →
      ∃ v, T ≤ v ∧ determine_column_widths entries s T = [v]) := by
  have hlen : (displayWidths entries s).length = entries.length := by
    simp [displayWidths]
  refine ⟨?_, ?_, ?_⟩
  · intro h
    unfold determine_column_widths determineColumnWidthsW
    rw [if_pos (by omega)]
  · intro h
    unfold determine_column_widths determineColumnWidthsW
    by_cases hl : (displayWidths entries s).length ≤ 1
    · rw [if_pos hl]
    · rw [if_neg hl, if_pos h]
  · intro hL hN hall
    unfold determine_column_widths
    rw [determineColumnWidthsW_main _ _ (by omega) hN]
    have hmpos : 0 < numPossibleW (displayWidths entries s) T := by omega
    have hlen2 : (fitEntries T (displayWidths entries s)
        (initInfo (numPossibleW (displayWidths entries s) T))).length =
          numPossibleW (displayWidths entries s) T :=
      fitEntries_initInfo_length _ _ _
    have hzero : chooseIdx (fitEntries T (displayWidths entries s)
        (initInfo (numPossibleW (displayWidths entries s) T))) = 0 :=
      chooseIdx_all_invalid _ (fun j hj => hall j (by omega))
    rw [hzero]
    obtain ⟨v, hv1, hv2⟩ := fit_cand_zero T (displayWidths entries s) hmpos
    exact ⟨v, hv2 (hall 0 hmpos), hv1⟩

/-- C3 witness: a single entry yields one column spanning the terminal
width. -/
theorem claim_C3_witness :
    (([⟨"a".toList, 0o100644, 1, 0, none⟩] : List Entry).length ≤ 1) ∧
    determine_column_widths [⟨"a".toList, 0o100644, 1, 0, none⟩] wideSettings 80 = [80] :=
  ⟨by decide, (claim_C3 _ wideSettings 80).1 (by decide)⟩

/-- C3 counterexample to the claim as stated: files of display widths 2
and 30 in a 20-column terminal invalidate every candidate, and the
algorithm returns `[30]` — one column of width 30, not a column
spanning `T = 20`. -/
theorem claim_C3_counterexample :
    displayWidths [⟨"ab".toList, 0o100644, 1, 0, none⟩,
        ⟨"abcdefghijklmnopqrstuvwxyz0123".toList, 0o100644, 1, 0, none⟩] wideSettings
      = [2, 30] ∧
    (∀ j, j < numPossibleW [2, 30] 20 →
      ((fitEntries 20 [2, 30] (initInfo (numPossibleW [2, 30] 20))).getD j ciDefault).valid
        = false) ∧
    determine_column_widths [⟨"ab".toList, 0o100644, 1, 0, none⟩,
        ⟨"abcdefghijklmnopqrstuvwxyz0123".toList, 0o100644, 1, 0, none⟩] wideSettings 20
      = [30] ∧
    ([30] : List Nat) ≠ [20] := by
  refine ⟨by decide, by decide, by decide, by decide⟩

/-- C4: the fitting simulation uses row count
`rows_c = (n + i) / (i + 1) = ceil(n / c)`; the renderer uses
`ceil(n / k)` lines and maps row-by-row over the plan; on each line the
j-th printed cell is the entry at column-major index
`line + j * rows = column * rows + row`, padded to the column's
computed width except after the last populated cell, and the line stops
exactly when the next index is out of range or the next column's width
is zero (columns beyond the plan read as width zero). -/
theorem claim_C4 (dw : Nat → Nat) (ws : List Nat) (numLines total line : Nat)
    (hws : ws ≠ []) :
    (∀ total' i : Nat, (total' + i) / (i + 1) = ceilDiv total' (i + 1)) ∧
    (∀ (entries : List Entry) (s : Settings) (T : Nat), entries ≠ [] →
      num_lines entries s T =
          ceilDiv entries.length (determine_column_widths entries s T).length ∧
        show_wide_listing entries s T =
          (List.range (num_lines entries s T)).map
            (fun ln => renderLine (fun j => display_width (entries.getD j default) s)
              (determine_column_widths entries s T) (num_lines entries s T)
              entries.length ln)) ∧
    renderLine dw ws numLines total line ≠ [] ∧
    (∀ j, j < (renderLine dw ws numLines total line).length →
      ((renderLine dw ws numLines total line).getD j (0, 0)).1 = line + j * numLines) ∧
    (∀ j, j + 1 < (renderLine dw ws numLines total line).length →
      ((renderLine dw ws numLines total line).getD j (0, 0)).2 =
        ws.getD j 0 - dw (line + j * numLines)) ∧
    ((renderLine dw ws numLines total line).getD
      ((renderLine dw ws numLines total line).length - 1) (0, 0)).2 = 0 ∧
    (∀ j, j + 1 < (renderLine dw ws numLines total line).length →
      line + (j + 1) * numLines < total ∧ ws.getD (j + 1) 0 ≠ 0) ∧
    ¬(line + (renderLine dw ws numLines total line).length * numLines < total ∧
      ws.getD ((renderLine dw ws numLines total line).length) 0 ≠ 0) := by
  obtain ⟨p1, p2, p3, p4, p5, p6⟩ :=
    renderLineAux_spec dw numLines total ws line (renderLineAux dw numLines total ws line)
      rfl hws
  refine ⟨fun total' i => rows_eq_ceilDiv total' i, ?_, p1, p2, p3, p4, p5, p6⟩
  intro entries s T h
  refine ⟨num_lines_eq entries s T, ?_⟩
  unfold show_wide_listing
  rw [if_neg (by simp [h])]

/-- C4 witness: plan `[7, 5]`, two rows, three entries of display width
2; on row 0 the second printed cell is entry `0 + 1 * 2 = 2`. -/
theorem claim_C4_witness :
    ([7, 5] : List Nat) ≠ [] ∧
    ((renderLine (fun _ => 2) [7, 5] 2 3 0).getD 1 (0, 0)).1 = 0 + 1 * 2 :=
  ⟨by decide, (claim_C4 (fun _ => 2) [7, 5] 2 3 0 (by decide)).2.2.2.1 1 (by decide)⟩

/-- C10: for a non-empty entry sequence the Column Plan always has at
least one column, the renderer's line count is positive (no zero
divisor), and every line's first column-major entry index is in
bounds. -/
theorem claim_C10 (entries : List Entry) (s : Settings) (T : Nat) (h : entries ≠ []) :
    1 ≤ (determine_column_widths entries s T).length ∧
    0 < num_lines entries s T ∧
    ∀ line, line < num_lines entries s T → line < entries.length := by
  have hk := determine_column_widths_length_pos entries s T
  have hn : 0 < entries.length := List.length_pos.mpr h
  have hnl := num_lines_eq entries s T
  refine ⟨hk, ?_, ?_⟩
  · rw [hnl]
    exact ceilDiv_pos _ _ hn hk
  · intro line hline
    rw [hnl] at hline
    have := ceilDiv_le entries.length (determine_column_widths entries s T).length hk
    omega

/-- C10 witness. -/
theorem claim_C10_witness :
    (([⟨"a".toList, 0o100644, 1, 0, none⟩] : List Entry) ≠ []) ∧
    1 ≤ (determine_column_widths [⟨"a".toList, 0o100644, 1, 0, none⟩] wideSettings 80).length :=
  ⟨by decide, (claim_C10 _ wideSettings 80 (by decide)).1⟩

end Dir
